import Mathlib

/-
  Verification of the acquisition-extraction-checkpoint pipeline
  (src/create_documents.py and its collaborators).

  The Python source is shallowly embedded: pure computations become Lean
  functions on `List Char` (Python `str`), `ℚ` (clock readings; no real
  time is modelled, only arithmetic on timestamps), and `Nat` counters.
  Fallible operations return `Option`/`Except`.  The filesystem state
  touched by the batch runner (temporary pdf files, output documents,
  the checkpoint log) is threaded explicitly through the run functions.
-/

set_option maxRecDepth 4096

/- ------------------------------------------------------------------
   RateLimiter (create_documents.py, lines 10-23)

   `wait_if_needed` is embedded as a function from the recorded request
   times (the deque, oldest first) and the wall-clock time `now` at
   entry, to the time at which the call completes (entry time plus any
   sleep) and the updated deque.  Note the source appends `now` -- the
   timestamp captured on entry, before the sleep -- to the deque.
   ------------------------------------------------------------------ -/

/-- Embedding of `RateLimiter.wait_if_needed` with burst size `B` and
window `W` (`sleep_time`).  Input: the recorded times and the entry
time `now`; output: the completion time of the call and the new deque. -/
def wait_if_needed (B : Nat) (W : ℚ) (times : List ℚ) (now : ℚ) : ℚ × List ℚ :=
  if times.length = B then
    let d := now - times.headI
    let c := if d < W then now + (W - d) else now
    (c, times.tail ++ [now])
  else
    (now, times ++ [now])

/-- A sequence of single-threaded `acquire` calls against one limiter.
`gaps` holds, for each call, the delay between the completion of the
previous call and the entry of this one (`0` = an immediate call).
Returns the list of completion times. -/
def acquireRun (B : Nat) (W : ℚ) : List ℚ → List ℚ → ℚ → List ℚ
  | [], _, _ => []
  | g :: gs, st, t =>
    let e := t + g
    let r := wait_if_needed B W st e
    r.1 :: acquireRun B W gs r.2 r.1

/- Helper facts about `List.getD` used when reasoning about deque indices. -/

theorem getD_append_lt {α : Type} (l r : List α) (k : Nat) (d : α)
    (h : k < l.length) : (l ++ r).getD k d = l.getD k d := by
  induction l generalizing k with
  | nil => simp at h
  | cons a l ih =>
    cases k with
    | zero => simp
    | succ k =>
      simp only [List.cons_append, List.getD_cons_succ]
      exact ih k (by simpa using h)

theorem getD_append_len {α : Type} (l r : List α) (d : α) :
    (l ++ r).getD l.length d = r.getD 0 d := by
  induction l with
  | nil => simp
  | cons a l ih => simpa using ih

/-- Key invariant of the limiter loop.  The deque `st` holds the entry
times of the most recent calls; `r` is the number of free slots
(`st.length + r = B`).  For the completion times `cs` of the remaining
calls: (A) while an old deque entry is still the oldest at call `k`
(that is, `r ≤ k < r + st.length`), the call completes no earlier than
that entry plus `W`; (C) the first call whose window is governed by an
entry made during this run completes no earlier than `t + W`; (B) any
two completions `B + 1` apart are at least `W` apart. -/
theorem acquireRun_spacing_aux (B : Nat) (W : ℚ) (hB : 1 ≤ B) :
    ∀ (gaps st : List ℚ) (t : ℚ) (r : Nat), st.length + r = B →
    (∀ x ∈ st, x ≤ t) → (∀ g ∈ gaps, 0 ≤ g) →
    (∀ k, r ≤ k → k < r + st.length →
      k < (acquireRun B W gaps st t).length →
      st.getD (k - r) 0 + W ≤ (acquireRun B W gaps st t).getD k 0) ∧
    (r + st.length < (acquireRun B W gaps st t).length →
      t + W ≤ (acquireRun B W gaps st t).getD (r + st.length) 0) ∧
    (∀ i, i + B + 1 < (acquireRun B W gaps st t).length →
      (acquireRun B W gaps st t).getD i 0 + W ≤
        (acquireRun B W gaps st t).getD (i + B + 1) 0) := by
  intro gaps
  induction gaps with
  | nil =>
    intro st t r hlen hmono hg
    refine ⟨?_, ?_, ?_⟩ <;> simp [acquireRun]
  | cons g gs ih =>
    intro st t r hlen hmono hg
    have hg0 : (0 : ℚ) ≤ g := hg g (List.mem_cons_self g gs)
    have hgs : ∀ x ∈ gs, (0 : ℚ) ≤ x := fun x hx => hg x (List.mem_cons_of_mem g hx)
    by_cases hfull : st.length = B
    · -- the deque is full: r = 0, the call waits out the window of the
      -- oldest recorded entry, then replaces it
      have hr0 : r = 0 := by omega
      subst hr0
      -- destructure the nonempty deque
      obtain ⟨s0, srest, rfl⟩ : ∃ s0 srest, st = s0 :: srest := by
        cases st with
        | nil => simp at hfull; omega
        | cons a l => exact ⟨a, l, rfl⟩
      set e : ℚ := t + g with he
      have hcs : acquireRun B W (g :: gs) (s0 :: srest) t =
          (wait_if_needed B W (s0 :: srest) e).1 ::
            acquireRun B W gs (wait_if_needed B W (s0 :: srest) e).2
              (wait_if_needed B W (s0 :: srest) e).1 := rfl
      rw [wait_if_needed, if_pos hfull] at hcs
      set c : ℚ := if e - s0 < W then e + (W - (e - s0)) else e with hc
      have hcs2 : acquireRun B W (g :: gs) (s0 :: srest) t =
          c :: acquireRun B W gs (srest ++ [e]) c := by
        simpa [List.headI] using hcs
      have hte : t ≤ e := by simp [he]; linarith
      have hs0t : s0 ≤ t := hmono s0 (by simp)
      have hec : e ≤ c := by
        rw [hc]; split <;> [linarith; linarith]
      have hs0c : s0 + W ≤ c := by
        rw [hc]; split
        · linarith
        · next hnot => rw [not_lt] at hnot; linarith
      have hlen2 : (srest ++ [e]).length + 0 = B := by
        simp at hfull ⊢; omega
      have hmono2 : ∀ x ∈ srest ++ [e], x ≤ c := by
        intro x hx
        rcases List.mem_append.1 hx with hx | hx
        · exact le_trans (hmono x (by simp [hx])) (le_trans hte hec)
        · simp at hx; subst hx; exact hec
      obtain ⟨ihA, ihC, ihB⟩ := ih (srest ++ [e]) c 0 hlen2 hmono2 hgs
      rw [hcs2]
      have hsl : srest.length + 1 = B := by simpa using hfull
      have hlast : (srest ++ [e]).getD srest.length 0 = e := by
        rw [getD_append_len]; simp
      have hlcons : ∀ (x : ℚ) (l : List ℚ), (x :: l).length = l.length + 1 :=
        fun x l => List.length_cons x l
      refine ⟨?_, ?_, ?_⟩
      · -- (A)
        intro k hk0 hkB hklen
        cases k with
        | zero => simpa using hs0c
        | succ j =>
          have hjB : j < B - 1 := by
            rw [hlcons] at hkB; omega
          have ej : j + 1 - 0 = j + 1 := by omega
          rw [ej, List.getD_cons_succ, List.getD_cons_succ]
          have hjlen : j < (acquireRun B W gs (srest ++ [e]) c).length := by
            rw [hlcons] at hklen; omega
          have h1 := ihA j (Nat.zero_le j) (by simp; omega) hjlen
          have ej2 : j - 0 = j := by omega
          rw [ej2, getD_append_lt srest [e] j 0 (by omega)] at h1
          exact h1
      · -- (C)
        intro hlt
        have hidx : (0 : Nat) + (s0 :: srest).length = B := by
          rw [hlcons]; omega
        rw [hidx] at hlt ⊢
        obtain ⟨B1, hB1⟩ : ∃ B1, B = B1 + 1 := ⟨B - 1, by omega⟩
        have hcast : (c :: acquireRun B W gs (srest ++ [e]) c).getD B 0
            = (acquireRun B W gs (srest ++ [e]) c).getD B1 0 := by
          rw [hB1]; exact List.getD_cons_succ
        rw [hcast]
        have hB1len : B1 < (acquireRun B W gs (srest ++ [e]) c).length := by
          rw [hlcons] at hlt; omega
        have h1 := ihA B1 (Nat.zero_le _) (by simp; omega) hB1len
        have hB1s : B1 - 0 = srest.length := by omega
        rw [hB1s, hlast] at h1
        calc t + W ≤ e + W := by linarith
        _ ≤ _ := h1
      · -- (B)
        intro i hi
        cases i with
        | zero =>
          have e0 : 0 + B + 1 = B + 1 := by omega
          rw [e0, List.getD_cons_succ, List.getD_cons_zero]
          have hlen3 : (0 : Nat) + (srest ++ [e]).length = B := by simp; omega
          have hBlt : 0 + (srest ++ [e]).length <
              (acquireRun B W gs (srest ++ [e]) c).length := by
            rw [hlen3]; rw [hlcons] at hi; omega
          have h1 := ihC hBlt
          rw [hlen3] at h1
          exact h1
        | succ j =>
          have e1 : j + 1 + B + 1 = (j + B + 1) + 1 := by omega
          rw [e1, List.getD_cons_succ, List.getD_cons_succ]
          have hjlt : j + B + 1 < (acquireRun B W gs (srest ++ [e]) c).length := by
            rw [hlcons] at hi; omega
          exact ihB j hjlt
    · -- the deque is not yet full: the call completes immediately and
      -- its entry time is appended
      have hrpos : 1 ≤ r := by omega
      set e : ℚ := t + g with he
      have hcs : acquireRun B W (g :: gs) st t =
          e :: acquireRun B W gs (st ++ [e]) e := by
        simp only [acquireRun, wait_if_needed, if_neg hfull]
      have hte : t ≤ e := by simp [he]; linarith
      have hlen2 : (st ++ [e]).length + (r - 1) = B := by simp; omega
      have hmono2 : ∀ x ∈ st ++ [e], x ≤ e := by
        intro x hx
        rcases List.mem_append.1 hx with hx | hx
        · exact le_trans (hmono x hx) hte
        · simp at hx; subst hx; exact le_refl _
      obtain ⟨ihA, ihC, ihB⟩ := ih (st ++ [e]) e (r - 1) hlen2 hmono2 hgs
      rw [hcs]
      have hlen4 : (st ++ [e]).length = st.length + 1 := by simp
      have hlast : (st ++ [e]).getD st.length 0 = e := by
        rw [getD_append_len]; simp
      have hlcons : ∀ (x : ℚ) (l : List ℚ), (x :: l).length = l.length + 1 :=
        fun x l => List.length_cons x l
      refine ⟨?_, ?_, ?_⟩
      · -- (A)
        intro k hk0 hkB hklen
        have hk1 : 1 ≤ k := le_trans hrpos hk0
        obtain ⟨j, rfl⟩ : ∃ j, k = j + 1 := ⟨k - 1, by omega⟩
        rw [List.getD_cons_succ]
        have hjlt : j - (r - 1) < st.length := by omega
        have hjlen : j < (acquireRun B W gs (st ++ [e]) e).length := by
          rw [hlcons] at hklen; omega
        have h1 := ihA j (by omega) (by rw [hlen4]; omega) hjlen
        rw [getD_append_lt st [e] _ 0 hjlt] at h1
        have h3 : j - (r - 1) = j + 1 - r := by omega
        rw [h3] at h1
        exact h1
      · -- (C)
        intro hlt
        obtain ⟨m, hm⟩ : ∃ m, r + st.length = m + 1 := ⟨r + st.length - 1, by omega⟩
        rw [hm, List.getD_cons_succ]
        have hmlen : m < (acquireRun B W gs (st ++ [e]) e).length := by
          rw [hm, hlcons] at hlt; omega
        have h1 := ihA m (by omega) (by rw [hlen4]; omega) hmlen
        have h2 : m - (r - 1) = st.length := by omega
        rw [h2, hlast] at h1
        calc t + W ≤ e + W := by linarith
        _ ≤ _ := h1
      · -- (B)
        intro i hi
        cases i with
        | zero =>
          have e0 : 0 + B + 1 = B + 1 := by omega
          rw [e0, List.getD_cons_succ, List.getD_cons_zero]
          have hidx : (r - 1) + (st ++ [e]).length = B := by
            rw [hlen4]; omega
          have hBlt : (r - 1) + (st ++ [e]).length <
              (acquireRun B W gs (st ++ [e]) e).length := by
            rw [hidx]; rw [hlcons] at hi; omega
          have h1 := ihC hBlt
          rw [hidx] at h1
          exact h1
        | succ j =>
          have e1 : j + 1 + B + 1 = (j + B + 1) + 1 := by omega
          rw [e1, List.getD_cons_succ, List.getD_cons_succ]
          have hjlt : j + B + 1 < (acquireRun B W gs (st ++ [e]) e).length := by
            rw [hlcons] at hi; omega
          exact ihB j hjlt

/-- The limiter produces one completion time per call. -/
theorem acquireRun_length (B : Nat) (W : ℚ) :
    ∀ (gaps st : List ℚ) (t : ℚ),
      (acquireRun B W gaps st t).length = gaps.length := by
  intro gaps
  induction gaps with
  | nil => intro st t; rfl
  | cons g gs ih => intro st t; simp [acquireRun, ih]

/-- Claim C3 (counterexample).  The claim states that no more than
`B` calls to `acquire()` complete within any sliding window of duration
`W`.  With `B = 4`, `W = 1` and nine immediate sequential calls, the
completions are `[0, 0, 0, 0, 1, 1, 1, 1, 1]`: calls 5 through 9 -- five
calls, more than the burst size -- all complete at the same instant
`t = 1`, so they fall inside every window of duration `1` that contains
`t = 1` (the fifth and ninth completions are less than `W` apart).  The
source records the timestamp taken on entry, before the sleep, which is
what lets the window overfill. -/
theorem C3_rate_window_counterexample :
    acquireRun 4 1 (List.replicate 9 0) [] 0 = [0, 0, 0, 0, 1, 1, 1, 1, 1] ∧
    (acquireRun 4 1 (List.replicate 9 0) [] 0).getD 8 0 -
      (acquireRun 4 1 (List.replicate 9 0) [] 0).getD 4 0 < 1 := by
  have h : acquireRun 4 1 (List.replicate 9 0) [] 0 =
      [0, 0, 0, 0, 1, 1, 1, 1, 1] := by
    norm_num [acquireRun, wait_if_needed, List.replicate]
  refine ⟨h, ?_⟩
  rw [h]
  norm_num [List.getD_cons_succ, List.getD_cons_zero]

/-- Claim C3 (amended).  Because `wait_if_needed` records the timestamp
taken on entry (before any sleep), the limiter configured with burst
size `B` and window `W` guarantees only that no more than `B + 1` calls
complete within a sliding window of duration `W`: for every
single-threaded call sequence (each call entering some nonnegative gap
after the previous completion), completions `B + 1` apart are at least
`W` apart.  The concrete scenario of the claim still holds: with burst
size 4 and window 1 second, five immediate calls complete at times
`[0, 0, 0, 0, 1]`, taking 1 second ≥ 1 second end-to-end. -/
theorem C3_rate_bound_amended (B : Nat) (W : ℚ) (gaps : List ℚ)
    (hB : 1 ≤ B) (hg : ∀ g ∈ gaps, 0 ≤ g) (i : Nat)
    (hi : i + B + 1 < (acquireRun B W gaps [] 0).length) :
    ((acquireRun B W gaps [] 0).getD i 0 + W ≤
      (acquireRun B W gaps [] 0).getD (i + B + 1) 0) ∧
    acquireRun 4 1 (List.replicate 5 0) [] 0 = [0, 0, 0, 0, 1] := by
  constructor
  · have h := (acquireRun_spacing_aux B W hB gaps [] 0 B (by simp)
      (by simp) hg).2.2
    exact h i hi
  · norm_num [acquireRun, wait_if_needed, List.replicate]

/-- Witness for `C3_rate_bound_amended` at `B = 4`, `W = 1`, six
immediate calls, `i = 0`. -/
theorem C3_rate_bound_amended_witness :
    (1 ≤ 4) ∧ (∀ g ∈ List.replicate 6 (0 : ℚ), 0 ≤ g) ∧
    (0 + 4 + 1 < (acquireRun 4 1 (List.replicate 6 0) [] 0).length) ∧
    (((acquireRun 4 1 (List.replicate 6 0) [] 0).getD 0 0 + 1 ≤
        (acquireRun 4 1 (List.replicate 6 0) [] 0).getD (0 + 4 + 1) 0) ∧
      acquireRun 4 1 (List.replicate 5 0) [] 0 = [0, 0, 0, 0, 1]) :=
  ⟨by norm_num, by simp, by rw [acquireRun_length]; norm_num,
    C3_rate_bound_amended 4 1 (List.replicate 6 0) (by norm_num)
      (by simp) 0 (by rw [acquireRun_length]; norm_num)⟩

/- ------------------------------------------------------------------
   LayoutTextExtractor (create_documents.py, lines 45-119)

   A pdfplumber word carries its text and bounding-box coordinates; the
   fallback reconstruction uses the left coordinate `x0` and the
   document-top coordinate `doctop` (equal to the page-top coordinate on
   a single page).  Python strings are embedded as `List Char`,
   coordinates as `ℚ`.  The first pass of `extract_text_from_pdf`
   (font/title detection, lines 50-67) computes `title_size`, which is
   never used afterwards, so it does not appear in the embedding.
   ------------------------------------------------------------------ -/

/-- A word extracted from a pdf page, with bounding-box coordinates. -/
structure Word where
  text : List Char
  x0 : ℚ
  doctop : ℚ
deriving DecidableEq

/-- The sort key comparison of `sorted(words, key=lambda w: (w['doctop'],
w['x0']))`: strict lexicographic order on `(doctop, x0)`. -/
def wordLt (a b : Word) : Prop :=
  a.doctop < b.doctop ∨ (a.doctop = b.doctop ∧ a.x0 < b.x0)

instance : DecidablePred fun p : Word × Word => wordLt p.1 p.2 := fun p => by
  unfold wordLt; infer_instance

instance (a b : Word) : Decidable (wordLt a b) := by
  unfold wordLt; infer_instance

/-- Stable insertion of a word into an already-sorted list (a later
word is placed after any word with an equal key, as Python's stable
`sorted` does). -/
def insertWord (w : Word) : List Word → List Word
  | [] => [w]
  | x :: xs => if wordLt w x then w :: x :: xs else x :: insertWord w xs

/-- Embedding of `sorted(words, key=lambda w: (w['doctop'], w['x0']))`. -/
def sortWords : List Word → List Word
  | [] => []
  | w :: ws => insertWord w (sortWords ws)

/-- `' '.join(current_line)`: words joined with single spaces. -/
def joinSpace : List (List Char) → List Char
  | [] => []
  | [w] => w
  | w :: ws => w ++ ' ' :: joinSpace ws

/-- The loop of the fallback strategy (lines 97-114), after the first
word has initialised `current_y` and `current_line`.  `tol` is the
vertical tolerance (hard-coded to `5` at line 102 in the source).
Returns the completed lines in order (each the space-join of its
words); the final open line is flushed. -/
def lineWalk (tol : ℚ) : List Word → ℚ → List (List Char) → List (List Char)
  | [], _, cur => [joinSpace cur]
  | w :: ws, y, cur =>
    if |w.doctop - y| > tol then
      joinSpace cur :: lineWalk tol ws w.doctop [w.text]
    else
      lineWalk tol ws y (cur ++ [w.text])

/-- The fallback line-reconstruction algorithm: sort words by
`(doctop, x0)`, then group into lines using vertical tolerance `tol`.
An empty page yields no lines (the `if current_line:` guards in the
source skip the append for an empty line; a nonempty page always has a
nonempty current line). -/
def reconstructLines (tol : ℚ) (ws : List Word) : List (List Char) :=
  match sortWords ws with
  | [] => []
  | w :: rest => lineWalk tol rest w.doctop [w.text]

example :
    reconstructLines 3
      [⟨"Hello".toList, 0, 10⟩, ⟨"World".toList, 50, 51/5⟩,
        ⟨"Next".toList, 0, 20⟩] =
    ["Hello World".toList, "Next".toList] := by
  norm_num [reconstructLines, sortWords, insertWord, wordLt, lineWalk,
    joinSpace, lt_abs]

/-- A pdf page as seen by `extract_text_from_pdf`: the text returned by
the primary strategy `page.extract_text(...)` (`[]` embeds both `None`
and the empty string, the two falsy results that trigger the fallback),
and the words returned by `page.extract_words(...)` for the fallback. -/
structure Page where
  primary : List Char
  words : List Word
deriving DecidableEq

/-- The page header chunk `f"\n\n=== Page {i+1} ===\n"` appended for a
page (0-based index `i`) whose primary extraction succeeded. -/
def pageMarker (i : Nat) : List Char :=
  "\n\n=== Page ".toList ++ Nat.toDigits 10 (i + 1) ++ " ===\n".toList

/-- The `text_content` entries contributed by the fallback strategy:
each reconstructed line followed by a separate `'\n'` entry
(lines 104-105 and 112-114 of the source). -/
def fallbackChunks (ws : List Word) : List (List Char) :=
  (reconstructLines 5 ws).bind (fun l => [l, ['\n']])

/-- The `text_content` list accumulated by the second pass of
`extract_text_from_pdf` over the pages, starting at 0-based page
index `i`. -/
def extractLoop : Nat → List Page → List (List Char)
  | _, [] => []
  | i, p :: ps =>
    (if p.primary ≠ [] then [pageMarker i, p.primary]
     else fallbackChunks p.words) ++ extractLoop (i + 1) ps

/-- Embedding of `extract_text_from_pdf` on an opened document:
`'\n'.join(text_content)`. -/
def extract_text_from_pdf (pages : List Page) : List Char :=
  List.intercalate ['\n'] (extractLoop 0 pages)

/-- Spec-side layout for an all-primary document: a numbered page
header chunk before each page text, in page order. -/
def primaryPagesSpec : Nat → List (List Char) → List (List Char)
  | _, [] => []
  | i, t :: ts => pageMarker i :: t :: primaryPagesSpec (i + 1) ts

example : pageMarker 0 = "\n\n=== Page 1 ===\n".toList := by decide

example :
    extract_text_from_pdf [⟨"A".toList, []⟩, ⟨[], [⟨"B".toList, 0, 0⟩]⟩] =
      "\n\n=== Page 1 ===\n\nA\nB\n\n".toList := by
  norm_num [extract_text_from_pdf, extractLoop, fallbackChunks,
    reconstructLines, sortWords, insertWord, lineWalk, joinSpace,
    pageMarker, List.intercalate, lt_abs]
  decide

/-- Number of (possibly overlapping) occurrences of `pat` as a
contiguous substring. -/
def countSub (pat : List Char) : List Char → Nat
  | [] => 0
  | c :: rest =>
    (if pat.isPrefixOf (c :: rest) then 1 else 0) + countSub pat rest

/-- Claim C6: with the words `{"Hello", top=10.0, x0=0}`,
`{"World", top=10.2, x0=50}`, `{"Next", top=20.0, x0=0}` the fallback
line reconstruction produces exactly the two lines `"Hello World"` and
`"Next"` -- both under the claim's vertical tolerance 3 and under the
tolerance 5 that the source hard-codes at line 102. -/
theorem C6_fallback_grouping :
    reconstructLines 3
        [⟨"Hello".toList, 0, 10⟩, ⟨"World".toList, 50, 51/5⟩,
          ⟨"Next".toList, 0, 20⟩] =
      ["Hello World".toList, "Next".toList] ∧
    reconstructLines 5
        [⟨"Hello".toList, 0, 10⟩, ⟨"World".toList, 50, 51/5⟩,
          ⟨"Next".toList, 0, 20⟩] =
      ["Hello World".toList, "Next".toList] := by
  constructor <;>
    norm_num [reconstructLines, sortWords, insertWord, wordLt, lineWalk,
      joinSpace, lt_abs]

/-- Claim C8 (counterexample).  The claim says a page-boundary marker is
inserted between consecutive pages regardless of the strategy used.
For the two-page document whose first page has primary text `"A"` and
whose second page falls back to the word `"B"`, the output is
`"\n\n=== Page 1 ===\n\nA\nB\n\n"`: it contains exactly one page
marker, which precedes the first page, and nothing but a newline
separates the two pages' texts (`drop 19` is everything after `"A"`) --
fallback pages receive no marker at all. -/
theorem C8_marker_counterexample :
    extract_text_from_pdf [⟨"A".toList, []⟩, ⟨[], [⟨"B".toList, 0, 0⟩]⟩] =
      "\n\n=== Page 1 ===\n\nA\nB\n\n".toList ∧
    countSub "=== Page".toList
      (extract_text_from_pdf
        [⟨"A".toList, []⟩, ⟨[], [⟨"B".toList, 0, 0⟩]⟩]) = 1 ∧
    List.drop 19
      (extract_text_from_pdf
        [⟨"A".toList, []⟩, ⟨[], [⟨"B".toList, 0, 0⟩]⟩]) =
      "\nB\n\n".toList := by
  have h : extract_text_from_pdf
      [⟨"A".toList, []⟩, ⟨[], [⟨"B".toList, 0, 0⟩]⟩] =
      "\n\n=== Page 1 ===\n\nA\nB\n\n".toList := by
    norm_num [extract_text_from_pdf, extractLoop, fallbackChunks,
      reconstructLines, sortWords, insertWord, lineWalk, joinSpace,
      pageMarker, List.intercalate, lt_abs]
    decide
  refine ⟨h, ?_, ?_⟩ <;> rw [h] <;> decide

/-- Claim C8 (amended).  The extractor concatenates per-page chunk
lists in page order (so the chunk list of an appended document splits
at the page boundary with the page numbering carried across); a page
whose text came from the primary strategy is preceded by a numbered
page header -- including the first page, so headers precede pages
rather than separate them -- while a page handled by the geometric
fallback contributes only its reconstructed lines, with no page marker;
the chunks are finally joined with newlines. -/
theorem C8_concat_amended :
    (∀ (ps qs : List Page) (i : Nat),
      extractLoop i (ps ++ qs) =
        extractLoop i ps ++ extractLoop (i + ps.length) qs) ∧
    (∀ (pages : List Page) (i : Nat), (∀ p ∈ pages, p.primary = []) →
      extractLoop i pages = pages.bind (fun p => fallbackChunks p.words)) ∧
    (∀ (pages : List Page) (i : Nat), (∀ p ∈ pages, p.primary ≠ []) →
      extractLoop i pages = primaryPagesSpec i (pages.map Page.primary)) ∧
    (∀ pages, extract_text_from_pdf pages =
      List.intercalate ['\n'] (extractLoop 0 pages)) := by
  refine ⟨?_, ?_, ?_, fun pages => rfl⟩
  · intro ps
    induction ps with
    | nil => intro qs i; simp [extractLoop]
    | cons p ps ih =>
      intro qs i
      have harith : i + (ps.length + 1) = (i + 1) + ps.length := by omega
      simp only [List.cons_append, extractLoop, ih, List.length_cons,
        List.append_assoc, harith, List.append_eq]
  · intro pages
    induction pages with
    | nil => intro i h; simp [extractLoop]
    | cons p ps ih =>
      intro i h
      have hp : p.primary = [] := h p (List.mem_cons_self p ps)
      have hrest : ∀ q ∈ ps, q.primary = [] :=
        fun q hq => h q (List.mem_cons_of_mem p hq)
      simp [extractLoop, hp, ih (i + 1) hrest]
  · intro pages
    induction pages with
    | nil => intro i h; simp [extractLoop, primaryPagesSpec]
    | cons p ps ih =>
      intro i h
      have hp : p.primary ≠ [] := h p (List.mem_cons_self p ps)
      have hrest : ∀ q ∈ ps, q.primary ≠ [] :=
        fun q hq => h q (List.mem_cons_of_mem p hq)
      simp [extractLoop, hp, ih (i + 1) hrest, primaryPagesSpec]

/-- Witness for `C8_concat_amended`: a concrete two-page all-primary
document and a concrete two-page all-fallback document. -/
theorem C8_concat_amended_witness :
    ((∀ p ∈ [(⟨"A".toList, []⟩ : Page), ⟨"B".toList, []⟩],
        p.primary ≠ []) ∧
      extractLoop 0 [(⟨"A".toList, []⟩ : Page), ⟨"B".toList, []⟩] =
        primaryPagesSpec 0
          (([(⟨"A".toList, []⟩ : Page), ⟨"B".toList, []⟩]).map
            Page.primary)) ∧
    ((∀ p ∈ [(⟨[], [⟨"B".toList, 0, 0⟩]⟩ : Page)], p.primary = []) ∧
      extractLoop 0 [(⟨[], [⟨"B".toList, 0, 0⟩]⟩ : Page)] =
        ([(⟨[], [⟨"B".toList, 0, 0⟩]⟩ : Page)]).bind
          (fun p => fallbackChunks p.words)) :=
  ⟨⟨by decide, C8_concat_amended.2.2.1 _ 0 (by decide)⟩,
    ⟨by decide, C8_concat_amended.2.1 _ 0 (by decide)⟩⟩

/- ------------------------------------------------------------------
   OutputDocument format (create_documents.py, lines 164-169)

   The success path writes `"---METADATA---\n"`, then
   `json.dump(paper, out_f, ensure_ascii=False, indent=2)`, then
   `"\n---FULLTEXT---\n"`, then the extracted text.  The paper record
   is embedded as an ordered association list of string fields (Python
   dicts preserve insertion order); `json.dump` with
   `ensure_ascii=False` escapes `"` and `\`, uses the short escapes
   `\b \f \n \r \t`, renders the remaining control characters below
   0x20 as `\u00xx`, and passes every other character through.
   ------------------------------------------------------------------ -/

/-- Lower-case hex digit, as produced by Python's json encoder. -/
def hexDig (n : Nat) : Char := "0123456789abcdef".toList.getD n '0'

/-- The escape of one character inside a JSON string literal
(`ensure_ascii=False`). -/
def escChar (c : Char) : List Char :=
  if c = '"' then ['\\', '"']
  else if c = '\\' then ['\\', '\\']
  else if c = '\x08' then ['\\', 'b']
  else if c = '\x0c' then ['\\', 'f']
  else if c = '\n' then ['\\', 'n']
  else if c = '\r' then ['\\', 'r']
  else if c = '\t' then ['\\', 't']
  else if c.toNat < 32 then
    ['\\', 'u', '0', '0', hexDig (c.toNat / 16), hexDig (c.toNat % 16)]
  else [c]

/-- A whole string escaped for a JSON string literal. -/
def escStr : List Char → List Char
  | [] => []
  | c :: cs => escChar c ++ escStr cs

/-- One `indent=2` entry of the dumped object: `  "key": "value"`. -/
def dumpEntry (kv : List Char × List Char) : List Char :=
  ' ' :: ' ' :: '"' ::
    (escStr kv.1 ++ '"' :: ':' :: ' ' :: '"' :: escStr kv.2 ++ ['"'])

/-- The entries of the dumped object joined with `",\n"`. -/
def dumpEntries : List (List Char × List Char) → List Char
  | [] => []
  | [kv] => dumpEntry kv
  | kv :: rest => dumpEntry kv ++ ',' :: '\n' :: dumpEntries rest

/-- Embedding of `json.dump(paper, out_f, ensure_ascii=False, indent=2)`
for a record of string fields: `{}` for the empty record, otherwise the
multi-line pretty form. -/
def json_dump (fields : List (List Char × List Char)) : List Char :=
  match fields with
  | [] => ['{', '}']
  | f :: fs => '{' :: '\n' :: (dumpEntries (f :: fs) ++ ['\n', '}'])

/-- Hex digit value, inverse of `hexDig`. -/
def hexVal (c : Char) : Option Nat :=
  let i := List.indexOf c "0123456789abcdef".toList
  if i < 16 then some i else none

/-- Inverse of the short escapes. -/
def unescChar (c : Char) : Option Char :=
  if c = '"' then some '"'
  else if c = '\\' then some '\\'
  else if c = 'b' then some '\x08'
  else if c = 'f' then some '\x0c'
  else if c = 'n' then some '\n'
  else if c = 'r' then some '\r'
  else if c = 't' then some '\t'
  else none

/-- Parse a JSON string literal body up to its closing quote; returns
the unescaped content and the remainder after the quote.  The fuel
argument only serves termination; `parseStr` passes the input length,
which always suffices since every step consumes at least one
character. -/
def parseStrF : Nat → List Char → Option (List Char × List Char)
  | 0, _ => none
  | _, [] => none
  | fuel + 1, c :: rest =>
    if c = '"' then some ([], rest)
    else if c = '\\' then
      match rest with
      | [] => none
      | e :: rest2 =>
        if e = 'u' then
          match rest2 with
          | a :: b :: c2 :: d :: rest3 =>
            match hexVal a, hexVal b, hexVal c2, hexVal d with
            | some va, some vb, some vc, some vd =>
              (parseStrF fuel rest3).map
                (fun p => (Char.ofNat (((va * 16 + vb) * 16 + vc) * 16 + vd)
                  :: p.1, p.2))
            | _, _, _, _ => none
          | _ => none
        else
          match unescChar e with
          | some u => (parseStrF fuel rest2).map (fun p => (u :: p.1, p.2))
          | none => none
    else (parseStrF fuel rest).map (fun p => (c :: p.1, p.2))

/-- Parse a JSON string literal body up to its closing quote. -/
def parseStr (s : List Char) : Option (List Char × List Char) :=
  parseStrF s.length s

/-- Parse the `",\n"`-joined entries of a dumped object, terminated by
`"\n}"` at the end of the input.  The fuel argument only serves
termination; `parseObj` passes the input length. -/
def parseEntries : Nat → List Char → Option (List (List Char × List Char))
  | 0, _ => none
  | fuel + 1, ' ' :: ' ' :: '"' :: rest =>
    match parseStr rest with
    | some (k, ':' :: ' ' :: '"' :: rest2) =>
      match parseStr rest2 with
      | some (v, rest3) =>
        match rest3 with
        | ',' :: '\n' :: rest4 =>
          match parseEntries fuel rest4 with
          | some es => some ((k, v) :: es)
          | none => none
        | ['\n', '}'] => some [(k, v)]
        | _ => none
      | none => none
    | _ => none
  | _ + 1, _ => none

/-- Parse a dumped object back into its fields. -/
def parseObj (s : List Char) : Option (List (List Char × List Char)) :=
  match s with
  | ['{', '}'] => some []
  | '{' :: '\n' :: rest => parseEntries (rest.length + 1) rest
  | _ => none

/-- The literal metadata marker line written at line 166. -/
def metaMarker : List Char := "---METADATA---\n".toList

/-- The literal fulltext marker line written at line 168. -/
def fulltextMarker : List Char := "\n---FULLTEXT---\n".toList

/-- The output document written on the success path (lines 164-169). -/
def writeOutputDocument (fields : List (List Char × List Char))
    (text : List Char) : List Char :=
  metaMarker ++ json_dump fields ++ fulltextMarker ++ text

/-- Split a string at the first occurrence of the substring `m`. -/
def splitOnFirst (m : List Char) : List Char → Option (List Char × List Char)
  | [] => if m.isPrefixOf [] then some ([], []) else none
  | c :: rest =>
    if m.isPrefixOf (c :: rest) then some ([], (c :: rest).drop m.length)
    else
      match splitOnFirst m rest with
      | some (a, b) => some (c :: a, b)
      | none => none

/-- Recover the metadata fields and the text body from an output
document by splitting on the two literal markers. -/
def recoverDocument (doc : List Char) :
    Option ((List (List Char × List Char)) × List Char) :=
  if metaMarker.isPrefixOf doc then
    match splitOnFirst fulltextMarker (doc.drop metaMarker.length) with
    | some (m, t) =>
      match parseObj m with
      | some fields => some (fields, t)
      | none => none
    | none => none
  else none

example :
    recoverDocument
      (writeOutputDocument [("id".toList, "1234".toList)] "body".toList) =
    some ([("id".toList, "1234".toList)], "body".toList) := by decide

example :
    recoverDocument (writeOutputDocument [] "x".toList) =
      some ([], "x".toList) := by decide

example :
    recoverDocument
      (writeOutputDocument
        [("a\"\\\n\x01".toList, "v".toList), ("k".toList, "w".toList)]
        "t\n---FULLTEXT---\nu".toList) =
    some ([("a\"\\\n\x01".toList, "v".toList), ("k".toList, "w".toList)],
      "t\n---FULLTEXT---\nu".toList) := by decide

/- Facts needed for the round-trip: the pretty-printed metadata never
contains a character other than `' '` or `'}'` directly after a
newline, so the first occurrence of the fulltext marker (which starts
`"\n-"`) in the document is the marker the writer emitted. -/

/-- Scam of a string checking that every character that directly
follows a newline is `' '` or `'}'`; `afterNl` says whether the
character before the scanned part was a newline. -/
def nlScan (afterNl : Bool) : List Char → Bool
  | [] => true
  | c :: rest =>
    (!afterNl || (c == ' ') || (c == '}')) && nlScan (c == '\n') rest

/-- The flag with which a scan continues after `l`. -/
def endNl (f : Bool) : List Char → Bool
  | [] => f
  | c :: rest => endNl (c == '\n') rest

theorem nlScan_append (b : List Char) :
    ∀ (a : List Char) (f : Bool),
      nlScan f (a ++ b) = (nlScan f a && nlScan (endNl f a) b) := by
  intro a
  induction a with
  | nil => intro f; simp [nlScan, endNl]
  | cons c rest ih =>
    intro f
    simp [nlScan, endNl, ih, Bool.and_assoc]

theorem nlScan_of_noNl :
    ∀ (l : List Char), (∀ c ∈ l, ¬(c = '\n')) →
      nlScan false l = true ∧ endNl false l = false := by
  intro l
  induction l with
  | nil => exact fun h => ⟨rfl, rfl⟩
  | cons c rest ih =>
    intro h
    have hc : ¬(c = '\n') := h c (List.mem_cons_self c rest)
    have hrest : ∀ d ∈ rest, ¬(d = '\n') :=
      fun d hd => h d (List.mem_cons_of_mem c hd)
    have hcn : (c == '\n') = false := by simp [hc]
    constructor <;> simp [nlScan, endNl, hcn, (ih hrest).1, (ih hrest).2]

theorem nlScan_decomp :
    ∀ (l : List Char) (f : Bool), nlScan f l = true →
      ∀ (x : List Char) (z : Char) (y2 : List Char),
        l = x ++ '\n' :: z :: y2 → z = ' ' ∨ z = '}' := by
  intro l
  induction l with
  | nil => intro f h x z y2 heq; cases x <;> simp at heq
  | cons c rest ih =>
    intro f h x z y2 heq
    have h2 : nlScan (c == '\n') rest = true := by
      simp [nlScan] at h; exact h.2
    cases x with
    | nil =>
      simp at heq
      obtain ⟨rfl, rfl⟩ := heq
      simp [nlScan] at h2
      rcases h2.1 with h3 | h3
      · left; simpa using h3
      · right; simpa using h3
    | cons d x2 =>
      simp at heq
      exact ih (c == '\n') h2 x2 z y2 heq.2

theorem getD_cases {α : Type} (l : List α) (n : Nat) (d : α) :
    l.getD n d ∈ l ∨ l.getD n d = d := by
  induction l generalizing n with
  | nil => right; simp
  | cons a l ih =>
    cases n with
    | zero => left; simp
    | succ n =>
      rw [List.getD_cons_succ]
      rcases ih n with h | h
      · exact Or.inl (List.mem_cons_of_mem a h)
      · exact Or.inr h

theorem hexDig_ne_nl (n : Nat) : ¬(hexDig n = '\n') := by
  unfold hexDig
  rcases getD_cases "0123456789abcdef".toList n '0' with h | h
  · have hall : ∀ c ∈ "0123456789abcdef".toList, ¬(c = '\n') := by decide
    exact hall _ h
  · rw [h]; decide

theorem escChar_noNl (c : Char) : ∀ d ∈ escChar c, ¬(d = '\n') := by
  unfold escChar
  split_ifs with h1 h2 h3 h4 h5 h6 h7 h8
  · intro d hd; simp at hd; rcases hd with rfl | rfl <;> decide
  · intro d hd; simp at hd; rcases hd with rfl | rfl <;> decide
  · intro d hd; simp at hd; rcases hd with rfl | rfl <;> decide
  · intro d hd; simp at hd; rcases hd with rfl | rfl <;> decide
  · intro d hd; simp at hd; rcases hd with rfl | rfl <;> decide
  · intro d hd; simp at hd; rcases hd with rfl | rfl <;> decide
  · intro d hd; simp at hd; rcases hd with rfl | rfl <;> decide
  · intro d hd
    simp at hd
    rcases hd with rfl | rfl | rfl | rfl | rfl <;>
      first
      | decide
      | exact hexDig_ne_nl _
  · intro d hd
    simp at hd
    subst hd
    exact h5

theorem escStr_noNl (s : List Char) : ∀ d ∈ escStr s, ¬(d = '\n') := by
  induction s with
  | nil => intro d hd; simp [escStr] at hd
  | cons c cs ih =>
    intro d hd
    rcases List.mem_append.1 hd with hd | hd
    · exact escChar_noNl c d hd
    · exact ih d hd

theorem dumpEntry_scan (kv : List Char × List Char) (f : Bool) :
    nlScan f (dumpEntry kv) = true ∧ endNl f (dumpEntry kv) = false := by
  have hmid : ∀ d ∈ escStr kv.1 ++
      '"' :: ':' :: ' ' :: '"' :: (escStr kv.2 ++ ['"']), ¬(d = '\n') := by
    intro d hd
    rcases List.mem_append.1 hd with hd | hd
    · exact escStr_noNl kv.1 d hd
    · simp only [List.mem_cons] at hd
      rcases hd with rfl | rfl | rfl | rfl | hd
      · decide
      · decide
      · decide
      · decide
      · rcases List.mem_append.1 hd with hd | hd
        · exact escStr_noNl kv.2 d hd
        · simp at hd; subst hd; decide
  have h1 := (nlScan_of_noNl _ hmid).1
  have h2 := (nlScan_of_noNl _ hmid).2
  have hsh : dumpEntry kv = ' ' :: ' ' :: '"' ::
      (escStr kv.1 ++ '"' :: ':' :: ' ' :: '"' ::
        (escStr kv.2 ++ ['"'])) := by simp [dumpEntry]
  constructor
  · rw [hsh, nlScan, nlScan, nlScan]
    simp [h1]
  · rw [hsh, endNl, endNl, endNl]
    simp [h2]

theorem dumpEntries_scan :
    ∀ (fs : List (List Char × List Char)), fs ≠ [] →
      nlScan true (dumpEntries fs ++ ['\n', '}']) = true := by
  intro fs
  induction fs with
  | nil => intro h; exact absurd rfl h
  | cons kv rest ih =>
    intro _
    cases rest with
    | nil =>
      rw [show dumpEntries [kv] = dumpEntry kv from rfl, nlScan_append]
      rw [(dumpEntry_scan kv true).1, (dumpEntry_scan kv true).2]
      decide
    | cons kv2 rest2 =>
      rw [show dumpEntries (kv :: kv2 :: rest2) =
          dumpEntry kv ++ ',' :: '\n' :: dumpEntries (kv2 :: rest2) from rfl]
      rw [List.append_assoc, List.cons_append, List.cons_append,
        nlScan_append]
      rw [(dumpEntry_scan kv true).1, (dumpEntry_scan kv true).2]
      rw [nlScan, nlScan]
      simp [ih (by simp)]

theorem json_dump_scan (fs : List (List Char × List Char)) :
    nlScan false (json_dump fs) = true := by
  cases fs with
  | nil => decide
  | cons f rest =>
    rw [show json_dump (f :: rest) =
        '{' :: '\n' :: (dumpEntries (f :: rest) ++ ['\n', '}']) from rfl]
    rw [nlScan, nlScan]
    simp [dumpEntries_scan (f :: rest) (by simp)]

theorem isPrefixOf_append_self : ∀ (m b : List Char),
    m.isPrefixOf (m ++ b) = true := by
  intro m b
  induction m with
  | nil => cases b <;> rfl
  | cons c m ih => simp [List.isPrefixOf, ih]

theorem splitOnFirst_append (m b : List Char) :
    ∀ (a : List Char),
      (∀ x y, a = x ++ y → y ≠ [] →
        ¬(m.isPrefixOf (y ++ (m ++ b)) = true)) →
      splitOnFirst m (a ++ (m ++ b)) = some (a, b) := by
  intro a
  induction a with
  | nil =>
    intro _
    simp only [List.nil_append]
    cases m with
    | nil =>
      cases b with
      | nil => rfl
      | cons c rest => simp [splitOnFirst, List.isPrefixOf]
    | cons mc mr =>
      rw [List.cons_append, splitOnFirst]
      have hpre : (mc :: mr).isPrefixOf (mc :: (mr ++ b)) = true := by
        rw [← List.cons_append]; exact isPrefixOf_append_self _ _
      rw [if_pos hpre]
      have hdrop : (mc :: (mr ++ b)).drop (mc :: mr).length = b := by
        rw [← List.cons_append, List.drop_left]
      rw [hdrop]
  | cons c a2 ih =>
    intro H
    have hnp : ¬(m.isPrefixOf ((c :: a2) ++ (m ++ b)) = true) :=
      H [] (c :: a2) rfl (by simp)
    rw [List.cons_append] at hnp
    rw [List.cons_append, splitOnFirst, if_neg hnp,
      ih (fun x y hxy hy => H (c :: x) y (by rw [hxy]; rfl) hy)]

/-- The fulltext marker cannot begin strictly inside the dumped
metadata: any nonempty suffix `y` of the dump, continued by the marker
itself and the text, fails the prefix test, because the marker starts
`"\n-"` while inside the dump every newline is followed by `' '` or
`'}'`, and the dump is never followed by `'-'`. -/
theorem marker_not_in_dump (fs : List (List Char × List Char))
    (tail : List Char) :
    ∀ x y, json_dump fs = x ++ y → y ≠ [] →
      ¬(fulltextMarker.isPrefixOf (y ++ (fulltextMarker ++ tail)) = true) := by
  intro x y heq hy hpre
  obtain ⟨y0, yt, rfl⟩ : ∃ y0 yt, y = y0 :: yt := by
    cases y with
    | nil => exact absurd rfl hy
    | cons a l => exact ⟨a, l, rfl⟩
  rw [show fulltextMarker = '\n' :: '-' :: "--FULLTEXT---\n".toList
    from rfl] at hpre
  rw [List.cons_append, List.isPrefixOf, Bool.and_eq_true] at hpre
  obtain ⟨hy0, hpre2⟩ := hpre
  have hy0e : y0 = '\n' := by
    have := beq_iff_eq.1 hy0; exact this.symm
  subst hy0e
  cases yt with
  | nil =>
    simp [List.isPrefixOf] at hpre2
  | cons z y2 =>
    rw [List.cons_append, List.isPrefixOf, Bool.and_eq_true] at hpre2
    have hz : z = '-' := by
      have := beq_iff_eq.1 hpre2.1; exact this.symm
    subst hz
    rcases nlScan_decomp (json_dump fs) false (json_dump_scan fs)
      x '-' y2 heq with h | h <;> simp at h

theorem escStr_length_ge (s : List Char) : s.length ≤ (escStr s).length := by
  induction s with
  | nil => simp [escStr]
  | cons c cs ih =>
    have hc : 1 ≤ (escChar c).length := by
      unfold escChar; split_ifs <;> simp
    rw [show escStr (c :: cs) = escChar c ++ escStr cs from rfl]
    simp only [List.length_append, List.length_cons]
    omega

theorem hexVal_hexDig : ∀ n, n < 16 → hexVal (hexDig n) = some n := by decide

theorem parseStrF_escStr (r : List Char) :
    ∀ (s : List Char) (fuel : Nat), s.length < fuel →
      parseStrF fuel (escStr s ++ '"' :: r) = some (s, r) := by
  intro s
  induction s with
  | nil =>
    intro fuel hf
    obtain ⟨f, rfl⟩ : ∃ f, fuel = f + 1 := ⟨fuel - 1, by omega⟩
    simp [escStr, parseStrF]
  | cons c cs ih =>
    intro fuel hf
    obtain ⟨f, rfl⟩ : ∃ f, fuel = f + 1 := ⟨fuel - 1, by omega⟩
    have hfs : cs.length < f := by simp at hf; omega
    rw [show escStr (c :: cs) ++ '"' :: r =
      escChar c ++ (escStr cs ++ '"' :: r) from by simp [escStr]]
    unfold escChar
    split_ifs with h1 h2 h3 h4 h5 h6 h7 h8
    · subst h1; simp [parseStrF, unescChar, ih f hfs]
    · subst h2; simp [parseStrF, unescChar, ih f hfs]
    · subst h3; simp [parseStrF, unescChar, ih f hfs]
    · subst h4; simp [parseStrF, unescChar, ih f hfs]
    · subst h5; simp [parseStrF, unescChar, ih f hfs]
    · subst h6; simp [parseStrF, unescChar, ih f hfs]
    · subst h7; simp [parseStrF, unescChar, ih f hfs]
    · -- the `\u00xx` escape of a low control character
      have hdiv : c.toNat / 16 < 16 := by omega
      have hmod : c.toNat % 16 < 16 := by omega
      have h0 : hexVal '0' = some 0 := by decide
      rw [show ('\\' :: 'u' :: '0' :: '0' :: hexDig (c.toNat / 16) ::
          hexDig (c.toNat % 16) :: []) ++ (escStr cs ++ '"' :: r) =
          '\\' :: 'u' :: '0' :: '0' :: hexDig (c.toNat / 16) ::
          hexDig (c.toNat % 16) :: (escStr cs ++ '"' :: r) from by simp]
      rw [parseStrF]
      simp only [reduceIte, h0, hexVal_hexDig _ hdiv, hexVal_hexDig _ hmod,
        ih f hfs, Option.map_some]
      rw [if_neg (show ¬(('\\' : Char) = '"') by decide)]
      simp
      rw [show c.toNat / 16 * 16 + c.toNat % 16 = c.toNat from by omega,
        Char.ofNat_toNat]
    · -- an ordinary character passes through unescaped
      rw [show [c] ++ (escStr cs ++ '"' :: r) =
        c :: (escStr cs ++ '"' :: r) from by simp]
      rw [parseStrF.eq_def]
      simp [h1, h2, ih f hfs]

theorem parseStr_escStr (s r : List Char) :
    parseStr (escStr s ++ '"' :: r) = some (s, r) := by
  have h := escStr_length_ge s
  have hlt : s.length < (escStr s ++ '"' :: r).length := by
    simp only [List.length_append, List.length_cons]
    omega
  exact parseStrF_escStr r s _ hlt

theorem dumpEntries_length_ge :
    ∀ fs : List (List Char × List Char), fs.length ≤ (dumpEntries fs).length := by
  intro fs
  induction fs with
  | nil => simp [dumpEntries]
  | cons kv rest ih =>
    cases rest with
    | nil => simp [dumpEntries, dumpEntry]
    | cons kv2 rest2 =>
      rw [show dumpEntries (kv :: kv2 :: rest2) =
        dumpEntry kv ++ ',' :: '\n' :: dumpEntries (kv2 :: rest2) from rfl]
      simp only [List.length_append, List.length_cons] at ih ⊢
      omega

theorem parseEntries_dump :
    ∀ (fs : List (List Char × List Char)), fs ≠ [] →
      ∀ (fuel : Nat), fs.length ≤ fuel →
      parseEntries fuel (dumpEntries fs ++ ['\n', '}']) = some fs := by
  intro fs
  induction fs with
  | nil => intro h; exact absurd rfl h
  | cons kv rest ih =>
    intro _ fuel hlen
    have hf1 : 1 ≤ fuel := le_trans (by simp) hlen
    obtain ⟨f, rfl⟩ : ∃ f, fuel = f + 1 := ⟨fuel - 1, by omega⟩
    cases rest with
    | nil =>
      rw [show dumpEntries [kv] ++ ['\n', '}'] = ' ' :: ' ' :: '"' ::
          (escStr kv.1 ++ '"' :: (':' :: ' ' :: '"' ::
            (escStr kv.2 ++ '"' :: ['\n', '}']))) from by
        simp [dumpEntries, dumpEntry]]
      rw [parseEntries]
      simp [parseStr_escStr]
    | cons kv2 rest2 =>
      rw [show dumpEntries (kv :: kv2 :: rest2) ++ ['\n', '}'] =
          ' ' :: ' ' :: '"' ::
          (escStr kv.1 ++ '"' :: (':' :: ' ' :: '"' ::
            (escStr kv.2 ++ '"' :: (',' :: '\n' ::
              (dumpEntries (kv2 :: rest2) ++ ['\n', '}']))))) from by
        rw [show dumpEntries (kv :: kv2 :: rest2) =
          dumpEntry kv ++ ',' :: '\n' :: dumpEntries (kv2 :: rest2) from rfl]
        simp [dumpEntry]]
      rw [parseEntries]
      have hih := ih (by simp) f (by simp at hlen ⊢; omega)
      simp [parseStr_escStr, hih]

theorem parseObj_dump (fs : List (List Char × List Char)) :
    parseObj (json_dump fs) = some fs := by
  cases fs with
  | nil => rfl
  | cons kv rest =>
    rw [show json_dump (kv :: rest) = '{' :: '\n' ::
        (dumpEntries (kv :: rest) ++ ['\n', '}']) from rfl]
    rw [parseObj]
    apply parseEntries_dump (kv :: rest) (by simp)
    have h := dumpEntries_length_ge (kv :: rest)
    simp only [List.length_append, List.length_cons] at h ⊢
    omega

/-- Claim C7: for every record written on the success path (arbitrary
string metadata fields and the nonempty extracted text), splitting the
output document on the two literal markers recovers a metadata object
field-for-field equal to the original record and the non-empty text
body.  The escaping performed by the serializer guarantees that the
first occurrence of `"\n---FULLTEXT---\n"` in the document is the
marker the writer emitted, even if the extracted text itself contains
marker lines. -/
theorem C7_document_roundtrip (fields : List (List Char × List Char))
    (text : List Char) (ht : text ≠ []) :
    recoverDocument (writeOutputDocument fields text) =
      some (fields, text) ∧ text ≠ [] := by
  refine ⟨?_, ht⟩
  unfold writeOutputDocument recoverDocument
  rw [show metaMarker ++ json_dump fields ++ fulltextMarker ++ text =
      metaMarker ++ (json_dump fields ++ (fulltextMarker ++ text)) from by
    simp]
  rw [if_pos (isPrefixOf_append_self metaMarker
    (json_dump fields ++ (fulltextMarker ++ text)))]
  rw [List.drop_left]
  rw [splitOnFirst_append fulltextMarker text (json_dump fields)
    (marker_not_in_dump fields text)]
  simp [parseObj_dump]

/-- Witness for `C7_document_roundtrip` at a concrete record and text. -/
theorem C7_document_roundtrip_witness :
    ("x".toList ≠ []) ∧
    (recoverDocument (writeOutputDocument
        [("id".toList, "1234".toList)] "x".toList) =
      some ([("id".toList, "1234".toList)], "x".toList) ∧
      "x".toList ≠ []) :=
  ⟨by decide, C7_document_roundtrip [("id".toList, "1234".toList)]
    "x".toList (by decide)⟩

/- ------------------------------------------------------------------
   ResumableBatchRunner (create_documents.py, lines 121-189)

   One record of the input collection together with the behaviour of
   the external world while processing it: whether `paper['id']`
   succeeds (a record may lack the field), whether `download_pdf`
   returns `True`, whether a failed download leaves a partially
   written file at the destination path, and the text that
   `extract_text_from_pdf` returns (`[]` embeds both `None` and `""`,
   the falsy results).  The runner's filesystem effects are threaded
   through `RunSt`: `tmp` holds the identifiers whose `<id>.pdf`
   exists, `outs` the output documents by identifier (append-only;
   a rewrite of the same path appends a later entry), `log` the lines
   of `processed_papers.log`.  `fetchCount`/`writeCount` count calls
   to `download_pdf` and output-document writes.  `lastId`/`lastPath`
   model the Python local variables `arxiv_id` and `pdf_path`, which
   the `except` handler at lines 180-184 reads: if the handler runs
   before they were ever assigned, the handler itself raises
   (`UnboundLocalError`), which nothing catches -- embedded as
   `Except.error`. -/

structure Paper where
  hasId : Bool
  id : List Char
  fields : List (List Char × List Char)
deriving DecidableEq

structure Outcome where
  fetchOk : Bool
  leavesFile : Bool
  extract : List Char
deriving DecidableEq

structure RunSt where
  tmp : List (List Char)
  outs : List (List Char × List Char)
  log : List (List Char)
  processed : Nat
  failed : Nat
  fetchCount : Nat
  writeCount : Nat
  lastId : Option (List Char)
  lastPath : Option (List Char)
deriving DecidableEq

/-- Creating (or truncating) a file: at most one entry per path. -/
def insertId (l : List (List Char)) (x : List Char) : List (List Char) :=
  if x ∈ l then l else l ++ [x]

def initRunSt : RunSt := ⟨[], [], [], 0, 0, 0, 0, none, none⟩

/-- One iteration of the `for paper in papers` loop (lines 141-184).
`loaded` is the `processed_ids` set built at lines 130-134; the source
never extends it during the run. -/
def processOne (loaded : List (List Char)) (st : RunSt) (p : Paper)
    (o : Outcome) : Except Unit RunSt :=
  if p.hasId then
    let st1 := { st with lastId := some p.id }
    if p.id ∈ loaded then
      Except.ok { st1 with processed := st1.processed + 1 }
    else
      let st2 := { st1 with lastPath := some p.id,
                            fetchCount := st1.fetchCount + 1 }
      if o.fetchOk then
        let st3 := { st2 with tmp := insertId st2.tmp p.id }
        if o.extract = [] then
          Except.ok { st3 with failed := st3.failed + 1,
                               tmp := st3.tmp.erase p.id }
        else
          Except.ok { st3 with
            outs := st3.outs ++
              [(p.id, writeOutputDocument p.fields o.extract)],
            writeCount := st3.writeCount + 1,
            tmp := st3.tmp.erase p.id,
            log := st3.log ++ [p.id],
            processed := st3.processed + 1 }
      else
        Except.ok { st2 with
                    failed := st2.failed + 1,
                    tmp := if o.leavesFile then insertId st2.tmp p.id
                           else st2.tmp }
  else
    match st.lastId with
    | none => Except.error ()
    | some _ =>
      match st.lastPath with
      | none => Except.error ()
      | some q =>
        Except.ok { st with
                    failed := st.failed + 1,
                    tmp := st.tmp.erase q }

def runFrom (loaded : List (List Char)) :
    RunSt → List (Paper × Outcome) → Except Unit RunSt
  | st, [] => Except.ok st
  | st, (p, o) :: rest =>
    match processOne loaded st p o with
    | Except.ok st2 => runFrom loaded st2 rest
    | Except.error e => Except.error e

/-- Embedding of `process_papers`: `loaded` is the resume set read
from the checkpoint file, which is also the initial content of the
log; the records are paired with their environment outcomes. -/
def process_papers (loaded : List (List Char))
    (recs : List (Paper × Outcome)) : Except Unit RunSt :=
  runFrom loaded { initRunSt with log := loaded } recs

/-- The completion-rate computation of line 189,
`processed/(processed+failed)`: Python's division raises
`ZeroDivisionError` when the denominator is zero, embedded as
`none`. -/
def summaryRate (p f : Nat) : Option ℚ :=
  if p + f = 0 then none else some ((p : ℚ) / ((p : ℚ) + (f : ℚ)))

example :
    process_papers [] [(⟨true, "a".toList, []⟩, ⟨true, false, "T".toList⟩)] =
    Except.ok ⟨[], [("a".toList, writeOutputDocument [] "T".toList)],
      ["a".toList], 1, 0, 1, 1, some "a".toList, some "a".toList⟩ := by
  rfl

example :
    process_papers [] [(⟨false, [], []⟩, ⟨true, false, []⟩)] =
    Except.error () := by rfl

/- ------------------------------------------------------------------
   Crash model for the checkpoint invariant (C1)

   The filesystem-visible operations of one record's success path, in
   source order (lines 153-173): create the pdf (`download_pdf`),
   write the output document (the `with open(...)` block closes at
   line 169), remove the pdf (line 171), append the identifier to the
   log and flush (lines 172-173).  A crash is executing only a prefix
   of the run's operation sequence.  Records that lack an identifier
   are outside this model (it covers well-formed inputs).
   ------------------------------------------------------------------ -/

inductive FileOp where
  | fetch (id : List Char)
  | fetchPart (id : List Char)
  | writeOut (id : List Char)
  | rmTmp (id : List Char)
  | appendLog (id : List Char)
deriving DecidableEq

structure FileState where
  tmp : List (List Char)
  outs : List (List Char)
  log : List (List Char)
deriving DecidableEq

def execOp (s : FileState) : FileOp → FileState
  | FileOp.fetch id => { s with tmp := insertId s.tmp id }
  | FileOp.fetchPart id => { s with tmp := insertId s.tmp id }
  | FileOp.writeOut id => { s with outs := insertId s.outs id }
  | FileOp.rmTmp id => { s with tmp := s.tmp.erase id }
  | FileOp.appendLog id => { s with log := s.log ++ [id] }

def execOps (s : FileState) (ops : List FileOp) : FileState :=
  ops.foldl execOp s

/-- The operations the loop performs for one record, following the
branches of lines 145-173. -/
def recOps (loaded : List (List Char)) (p : Paper) (o : Outcome) :
    List FileOp :=
  if p.id ∈ loaded then []
  else if o.fetchOk then
    if o.extract = [] then [FileOp.fetch p.id, FileOp.rmTmp p.id]
    else [FileOp.fetch p.id, FileOp.writeOut p.id, FileOp.rmTmp p.id,
      FileOp.appendLog p.id]
  else if o.leavesFile then [FileOp.fetchPart p.id] else []

def runTrace (loaded : List (List Char))
    (recs : List (Paper × Outcome)) : List FileOp :=
  (recs.map (fun r => recOps loaded r.1 r.2)).join

/-- `isPre a b`: `a` is a prefix of `b` (a crash point of trace `b`). -/
def isPre {α : Type} (a b : List α) : Prop := ∃ t, b = a ++ t

theorem isPre_append_cases {α : Type} :
    ∀ (a : List α) (b p : List α), isPre p (a ++ b) →
      isPre p a ∨ ∃ t, p = a ++ t ∧ isPre t b := by
  intro a
  induction a with
  | nil =>
    intro b p h
    exact Or.inr ⟨p, rfl, h⟩
  | cons x a2 ih =>
    intro b p h
    cases p with
    | nil => exact Or.inl ⟨x :: a2, rfl⟩
    | cons y p2 =>
      obtain ⟨t, ht⟩ := h
      rw [List.cons_append] at ht
      simp only [List.cons_append, List.cons.injEq] at ht
      obtain ⟨rfl, ht2⟩ := ht
      rcases ih b p2 ⟨t, ht2⟩ with h2 | ⟨t2, rfl, h3⟩
      · obtain ⟨t3, rfl⟩ := h2
        exact Or.inl ⟨t3, rfl⟩
      · exact Or.inr ⟨t2, rfl, h3⟩

theorem isPre_cons_cases {α : Type} (x : α) (l p : List α)
    (h : isPre p (x :: l)) : p = [] ∨ ∃ t, p = x :: t ∧ isPre t l := by
  cases p with
  | nil => exact Or.inl rfl
  | cons y p2 =>
    obtain ⟨t, ht⟩ := h
    simp only [List.cons_append, List.cons.injEq] at ht
    exact Or.inr ⟨p2, by rw [ht.1], ⟨t, ht.2⟩⟩

theorem isPre_nil {α : Type} (p : List α) (h : isPre p ([] : List α)) :
    p = [] := by
  obtain ⟨t, ht⟩ := h
  cases p with
  | nil => rfl
  | cons y p2 => simp at ht

/-- Filesystem monotonicity: no operation ever removes an output
document or a checkpoint line, and the log only grows at its end. -/
theorem execOps_mono (ops : List FileOp) :
    ∀ (s : FileState),
      isPre s.log (execOps s ops).log ∧
      (∀ x ∈ s.outs, x ∈ (execOps s ops).outs) := by
  induction ops with
  | nil => intro s; exact ⟨⟨[], by simp [execOps]⟩, fun x hx => hx⟩
  | cons op rest ih =>
    intro s
    have hstep : isPre s.log (execOp s op).log ∧
        (∀ x ∈ s.outs, x ∈ (execOp s op).outs) := by
      cases op with
      | fetch id => exact ⟨⟨[], by simp [execOp]⟩, by simp [execOp]⟩
      | fetchPart id => exact ⟨⟨[], by simp [execOp]⟩, by simp [execOp]⟩
      | writeOut id =>
        refine ⟨⟨[], by simp [execOp]⟩, ?_⟩
        intro x hx
        simp only [execOp, insertId]
        split
        · exact hx
        · exact List.mem_append.2 (Or.inl hx)
      | rmTmp id => exact ⟨⟨[], by simp [execOp]⟩, by simp [execOp]⟩
      | appendLog id => exact ⟨⟨[id], by simp [execOp]⟩, by simp [execOp]⟩
    obtain ⟨⟨t1, hlog⟩, houts⟩ := hstep
    obtain ⟨⟨t2, hlog2⟩, houts2⟩ := ih (execOp s op)
    refine ⟨⟨t1 ++ t2, ?_⟩, fun x hx => houts2 x (houts x hx)⟩
    show (execOps (execOp s op) rest).log = s.log ++ (t1 ++ t2)
    rw [hlog2, hlog, List.append_assoc]

theorem mem_insertId (l : List (List Char)) (y x : List Char) :
    x ∈ insertId l y ↔ x ∈ l ∨ x = y := by
  unfold insertId
  split
  · next h =>
    constructor
    · exact Or.inl
    · intro h2
      rcases h2 with h2 | rfl
      · exact h2
      · exact h
  · simp

/-- Every crash point inside one record's operations preserves the
invariant that each checkpointed identifier has its output document
fully written: the log is only appended after the output write. -/
theorem recOps_pre_inv (loaded : List (List Char)) (p : Paper)
    (o : Outcome) :
    ∀ (ops : List FileOp), isPre ops (recOps loaded p o) →
      ∀ (s : FileState), (∀ x ∈ s.log, x ∈ s.outs) →
        ∀ x ∈ (execOps s ops).log, x ∈ (execOps s ops).outs := by
  intro ops hpre s hs
  unfold recOps at hpre
  split_ifs at hpre with h1 h2 h3 h4
  · rw [isPre_nil _ hpre]; exact hs
  · -- extraction failure: [fetch, rmTmp], only the pdf file changes
    rcases isPre_cons_cases _ _ _ hpre with rfl | ⟨t1, rfl, h5⟩
    · exact hs
    rcases isPre_cons_cases _ _ _ h5 with rfl | ⟨t2, rfl, h6⟩
    · simpa [execOps, execOp] using hs
    rw [isPre_nil _ h6]
    simpa [execOps, execOp] using hs
  · -- success: [fetch, writeOut, rmTmp, appendLog]
    rcases isPre_cons_cases _ _ _ hpre with rfl | ⟨t1, rfl, h5⟩
    · exact hs
    rcases isPre_cons_cases _ _ _ h5 with rfl | ⟨t2, rfl, h6⟩
    · simpa [execOps, execOp] using hs
    rcases isPre_cons_cases _ _ _ h6 with rfl | ⟨t3, rfl, h7⟩
    · simp only [execOps, List.foldl, execOp]
      intro x hx
      exact (mem_insertId _ _ _).2 (Or.inl (hs x hx))
    rcases isPre_cons_cases _ _ _ h7 with rfl | ⟨t4, rfl, h8⟩
    · simp only [execOps, List.foldl, execOp]
      intro x hx
      exact (mem_insertId _ _ _).2 (Or.inl (hs x hx))
    rw [isPre_nil _ h8]
    simp only [execOps, List.foldl, execOp]
    intro x hx
    rcases List.mem_append.1 hx with hx | hx
    · exact (mem_insertId _ _ _).2 (Or.inl (hs x hx))
    · simp at hx
      subst hx
      exact (mem_insertId _ _ _).2 (Or.inr rfl)
  · -- fetch failure leaving a partial pdf: [fetchPart]
    rcases isPre_cons_cases _ _ _ hpre with rfl | ⟨t1, rfl, h5⟩
    · exact hs
    rw [isPre_nil _ h5]
    simpa [execOps, execOp] using hs
  · -- fetch failure leaving nothing
    rw [isPre_nil _ hpre]; exact hs

theorem runTrace_cons (loaded : List (List Char)) (r : Paper × Outcome)
    (rest : List (Paper × Outcome)) :
    runTrace loaded (r :: rest) =
      recOps loaded r.1 r.2 ++ runTrace loaded rest := by
  simp [runTrace]

theorem runTrace_append (loaded : List (List Char))
    (r1 r2 : List (Paper × Outcome)) :
    runTrace loaded (r1 ++ r2) =
      runTrace loaded r1 ++ runTrace loaded r2 := by
  simp [runTrace]

theorem execOps_append (s : FileState) (a b : List FileOp) :
    execOps s (a ++ b) = execOps (execOps s a) b := by
  simp [execOps, List.foldl_append]

/-- Every crash point of a whole run preserves the invariant. -/
theorem trace_pre_inv (loaded : List (List Char)) :
    ∀ (recs : List (Paper × Outcome)) (ops : List FileOp),
      isPre ops (runTrace loaded recs) →
      ∀ (s : FileState), (∀ x ∈ s.log, x ∈ s.outs) →
        ∀ x ∈ (execOps s ops).log, x ∈ (execOps s ops).outs := by
  intro recs
  induction recs with
  | nil =>
    intro ops h s hs
    have h0 : ops = [] := isPre_nil _ (by simpa [runTrace] using h)
    subst h0
    exact hs
  | cons r rest ih =>
    intro ops h s hs
    rw [runTrace_cons] at h
    rcases isPre_append_cases _ _ _ h with h2 | ⟨t, rfl, h3⟩
    · exact recOps_pre_inv loaded r.1 r.2 ops h2 s hs
    · rw [execOps_append]
      exact ih t h3 (execOps s (recOps loaded r.1 r.2))
        (recOps_pre_inv loaded r.1 r.2 _ ⟨[], by simp⟩ s hs)

theorem isPre_mem {α : Type} (a b : List α) (h : isPre a b) :
    ∀ x ∈ a, x ∈ b := by
  obtain ⟨t, rfl⟩ := h
  intro x hx
  exact List.mem_append.2 (Or.inl hx)

/-- A record fully processed on the success path has its identifier in
the log and its output written, however the run continues. -/
theorem trace_complete (loaded : List (List Char)) :
    ∀ (recs : List (Paper × Outcome)) (s : FileState) (p : Paper)
      (o : Outcome), (p, o) ∈ recs → o.fetchOk = true → o.extract ≠ [] →
      p.id ∉ loaded →
      p.id ∈ (execOps s (runTrace loaded recs)).log ∧
      p.id ∈ (execOps s (runTrace loaded recs)).outs := by
  intro recs
  induction recs with
  | nil => intro s p o h; simp at h
  | cons r rest ih =>
    intro s p o hmem hok hex hnl
    rw [runTrace_cons, execOps_append]
    rcases List.mem_cons.1 hmem with heq | hmem2
    · -- the record at the head: its own operations put the id in place
      have hrec : recOps loaded r.1 r.2 = [FileOp.fetch p.id,
          FileOp.writeOut p.id, FileOp.rmTmp p.id,
          FileOp.appendLog p.id] := by
        rw [← heq]
        unfold recOps
        rw [if_neg hnl, if_pos hok, if_neg hex]
      set s1 := execOps s (recOps loaded r.1 r.2) with hs1
      have hid : p.id ∈ s1.log ∧ p.id ∈ s1.outs := by
        rw [hs1, hrec]
        simp only [execOps, List.foldl, execOp]
        constructor
        · exact List.mem_append.2 (Or.inr (by simp))
        · exact (mem_insertId _ _ _).2 (Or.inr rfl)
      have hmono := execOps_mono (runTrace loaded rest) s1
      exact ⟨isPre_mem _ _ hmono.1 p.id hid.1, hmono.2 p.id hid.2⟩
    · exact ih (execOps s (recOps loaded r.1 r.2)) p o hmem2 hok hex hnl

/-- Claim C1 (counterexample).  The claim's "if and only if" fails in
the crash window between the output write (line 169) and the
checkpoint append (lines 172-173): after executing the first two
operations of a successful record's trace -- a reachable crash point,
as the prefix fact shows -- the output document of `"a"` is fully
written but `"a"` is not in the checkpoint log. -/
theorem C1_crash_iff_counterexample :
    isPre ((runTrace [] [(⟨true, "a".toList, []⟩,
        ⟨true, false, "T".toList⟩)]).take 2)
      (runTrace [] [(⟨true, "a".toList, []⟩, ⟨true, false, "T".toList⟩)]) ∧
    "a".toList ∈ (execOps ⟨[], [], []⟩
      ((runTrace [] [(⟨true, "a".toList, []⟩,
        ⟨true, false, "T".toList⟩)]).take 2)).outs ∧
    "a".toList ∉ (execOps ⟨[], [], []⟩
      ((runTrace [] [(⟨true, "a".toList, []⟩,
        ⟨true, false, "T".toList⟩)]).take 2)).log :=
  ⟨⟨(runTrace [] [(⟨true, "a".toList, []⟩,
      ⟨true, false, "T".toList⟩)]).drop 2, by decide⟩,
    by decide, by decide⟩

/-- Claim C1 (amended).  An identifier appears in the checkpoint log
only if its output document was fully written -- the output write
completes before the checkpoint entry is appended and flushed -- and
the checkpoint is append-only, so at every crash point of a resumed
run (`recs1` completed records, then a crash anywhere inside the
remaining trace): (1) every logged identifier has its output; (2) the
pre-existing log is a prefix of the current log and (3) pre-existing
outputs survive, so a crash loses at most the in-flight record and
never a previously completed one; (4) every record completed on the
success path before the crash is checkpointed with its output.  The
converse direction of the claim's "if and only if" fails only for the
in-flight record, whose output may exist without a checkpoint entry
(see the counterexample). -/
theorem C1_checkpoint_amended
    (recs1 recs2 : List (Paper × Outcome)) (init : FileState)
    (ops2 : List FileOp)
    (hinv : ∀ x ∈ init.log, x ∈ init.outs)
    (hpre : isPre ops2 (runTrace init.log recs2)) :
    (∀ x ∈ (execOps init (runTrace init.log recs1 ++ ops2)).log,
      x ∈ (execOps init (runTrace init.log recs1 ++ ops2)).outs) ∧
    isPre init.log
      (execOps init (runTrace init.log recs1 ++ ops2)).log ∧
    (∀ x ∈ init.outs,
      x ∈ (execOps init (runTrace init.log recs1 ++ ops2)).outs) ∧
    (∀ po ∈ recs1, po.2.fetchOk = true → po.2.extract ≠ [] →
      po.1.id ∉ init.log →
      po.1.id ∈ (execOps init (runTrace init.log recs1 ++ ops2)).log ∧
      po.1.id ∈ (execOps init (runTrace init.log recs1 ++ ops2)).outs) := by
  have hwhole : isPre (runTrace init.log recs1 ++ ops2)
      (runTrace init.log (recs1 ++ recs2)) := by
    obtain ⟨t, ht⟩ := hpre
    exact ⟨t, by rw [runTrace_append, ht, List.append_assoc]⟩
  refine ⟨trace_pre_inv init.log (recs1 ++ recs2) _ hwhole init hinv,
    (execOps_mono _ init).1, (execOps_mono _ init).2, ?_⟩
  intro po hpo hok hex hnl
  rw [execOps_append]
  have hdone := trace_complete init.log recs1 init po.1 po.2
    (by rw [show (po.1, po.2) = po from rfl]; exact hpo) hok hex hnl
  have hmono := execOps_mono ops2 (execOps init (runTrace init.log recs1))
  exact ⟨isPre_mem _ _ hmono.1 po.1.id hdone.1, hmono.2 po.1.id hdone.2⟩

/-- Witness for `C1_checkpoint_amended`: one already-completed
successful record, a crash before any further operation, empty
initial state. -/
theorem C1_checkpoint_amended_witness :
    (∀ x ∈ (FileState.mk [] [] []).log, x ∈ (FileState.mk [] [] []).outs) ∧
    isPre ([] : List FileOp) (runTrace (FileState.mk [] [] []).log []) ∧
    ("a".toList ∈ (execOps ⟨[], [], []⟩
        (runTrace [] [(⟨true, "a".toList, []⟩,
          ⟨true, false, "T".toList⟩)] ++ [])).log) :=
  ⟨by simp, ⟨[], rfl⟩,
    ((C1_checkpoint_amended [(⟨true, "a".toList, []⟩,
        ⟨true, false, "T".toList⟩)] [] ⟨[], [], []⟩ []
      (by simp) ⟨[], rfl⟩).2.2.2
      (⟨true, "a".toList, []⟩, ⟨true, false, "T".toList⟩) (by simp)
      rfl (by decide) (by decide)).1⟩


/- The four states one loop iteration can leave behind for a record
with an `id` field, named for reuse in the inversion lemma below. -/

def skipSt (st : RunSt) (p : Paper) : RunSt :=
  { st with
    lastId := some p.id,
    processed := st.processed + 1 }

def fetchFailSt (st : RunSt) (p : Paper) (o : Outcome) : RunSt :=
  { st with
    lastId := some p.id,
    lastPath := some p.id,
    fetchCount := st.fetchCount + 1,
    failed := st.failed + 1,
    tmp := if o.leavesFile then insertId st.tmp p.id else st.tmp }

def extractFailSt (st : RunSt) (p : Paper) : RunSt :=
  { st with
    lastId := some p.id,
    lastPath := some p.id,
    fetchCount := st.fetchCount + 1,
    failed := st.failed + 1,
    tmp := (insertId st.tmp p.id).erase p.id }

def successSt (st : RunSt) (p : Paper) (o : Outcome) : RunSt :=
  { st with
    lastId := some p.id,
    lastPath := some p.id,
    fetchCount := st.fetchCount + 1,
    tmp := (insertId st.tmp p.id).erase p.id,
    outs := st.outs ++ [(p.id, writeOutputDocument p.fields o.extract)],
    writeCount := st.writeCount + 1,
    log := st.log ++ [p.id],
    processed := st.processed + 1 }

/-- Inversion of one loop iteration for a record that has an `id`
field: exactly one of skip, fetch failure, extraction failure, or
success happened, with the corresponding state change. -/
theorem processOne_ok_cases (loaded : List (List Char)) (st : RunSt)
    (p : Paper) (o : Outcome) (st1 : RunSt)
    (h : processOne loaded st p o = Except.ok st1)
    (hid : p.hasId = true) :
    (p.id ∈ loaded ∧ st1 = skipSt st p) ∨
    (p.id ∉ loaded ∧ o.fetchOk = false ∧ st1 = fetchFailSt st p o) ∨
    (p.id ∉ loaded ∧ o.fetchOk = true ∧ o.extract = [] ∧
      st1 = extractFailSt st p) ∨
    (p.id ∉ loaded ∧ o.fetchOk = true ∧ o.extract ≠ [] ∧
      st1 = successSt st p o) := by
  unfold processOne at h
  rw [if_pos hid] at h
  by_cases hmem : p.id ∈ loaded
  · rw [if_pos hmem] at h
    simp only [Except.ok.injEq] at h
    exact Or.inl ⟨hmem, h.symm⟩
  · rw [if_neg hmem] at h
    by_cases hok : o.fetchOk
    · rw [if_pos hok] at h
      by_cases hex : o.extract = []
      · rw [if_pos hex] at h
        simp only [Except.ok.injEq] at h
        exact Or.inr (Or.inr (Or.inl ⟨hmem, hok, hex, h.symm⟩))
      · rw [if_neg hex] at h
        simp only [Except.ok.injEq] at h
        exact Or.inr (Or.inr (Or.inr ⟨hmem, hok, hex, h.symm⟩))
    · rw [if_neg hok] at h
      simp only [Except.ok.injEq] at h
      exact Or.inr (Or.inl ⟨hmem, by simpa using hok, h.symm⟩)

/-- Inversion of `runFrom` on a nonempty record list. -/
theorem runFrom_cons_ok (loaded : List (List Char)) (st : RunSt)
    (p : Paper) (o : Outcome) (rest : List (Paper × Outcome))
    (st' : RunSt)
    (h : runFrom loaded st ((p, o) :: rest) = Except.ok st') :
    ∃ st1, processOne loaded st p o = Except.ok st1 ∧
      runFrom loaded st1 rest = Except.ok st' := by
  rw [runFrom] at h
  cases hp : processOne loaded st p o with
  | error e => rw [hp] at h; simp at h
  | ok st1 => rw [hp] at h; exact ⟨st1, rfl, h⟩

/-- The failed counter never decreases. -/
theorem processOne_failed_mono (loaded : List (List Char)) (st : RunSt)
    (p : Paper) (o : Outcome) (st1 : RunSt)
    (h : processOne loaded st p o = Except.ok st1) :
    st.failed ≤ st1.failed := by
  by_cases hid : p.hasId
  · rcases processOne_ok_cases loaded st p o st1 h hid with
      ⟨_, rfl⟩ | ⟨_, _, rfl⟩ | ⟨_, _, _, rfl⟩ | ⟨_, _, _, rfl⟩ <;>
      simp [skipSt, fetchFailSt, extractFailSt, successSt]
  · unfold processOne at h
    rw [if_neg hid] at h
    cases hli : st.lastId with
    | none => rw [hli] at h; simp at h
    | some a =>
      rw [hli] at h
      cases hlp : st.lastPath with
      | none => rw [hlp] at h; simp at h
      | some q =>
        rw [hlp] at h
        simp only [Except.ok.injEq] at h
        rw [← h]; simp

theorem runFrom_failed_mono (loaded : List (List Char)) :
    ∀ (recs : List (Paper × Outcome)) (st st' : RunSt),
      runFrom loaded st recs = Except.ok st' → st.failed ≤ st'.failed := by
  intro recs
  induction recs with
  | nil => intro st st' h; rw [runFrom] at h; simp at h; rw [h]
  | cons r rest ih =>
    intro st st' h
    obtain ⟨p, o⟩ := r
    obtain ⟨st1, h1, h2⟩ := runFrom_cons_ok loaded st p o rest st' h
    exact le_trans (processOne_failed_mono loaded st p o st1 h1)
      (ih st1 st' h2)

/-- A run from an empty resume set that ends with as many failures as
it started with took the success path on every record: the log is
extended by exactly the record identifiers in order, and every record
counts as processed. -/
theorem runFrom_no_fail_log :
    ∀ (recs : List (Paper × Outcome)) (st st' : RunSt),
      runFrom [] st recs = Except.ok st' →
      (∀ po ∈ recs, po.1.hasId = true) →
      st'.failed = st.failed →
      st'.log = st.log ++ recs.map (fun po => po.1.id) ∧
      st'.processed = st.processed + recs.length := by
  intro recs
  induction recs with
  | nil =>
    intro st st' h _ _
    rw [runFrom] at h
    simp at h
    rw [← h]
    simp
  | cons r rest ih =>
    intro st st' h hall hfail
    obtain ⟨p, o⟩ := r
    obtain ⟨st1, h1, h2⟩ := runFrom_cons_ok [] st p o rest st' h
    have hid : p.hasId = true := (hall (p, o) (by simp)).symm ▸
      hall (p, o) (by simp)
    have hmono := runFrom_failed_mono [] rest st1 st' h2
    rcases processOne_ok_cases [] st p o st1 h1 hid with
      ⟨hmem, _⟩ | ⟨_, _, rfl⟩ | ⟨_, _, _, rfl⟩ | ⟨_, _, _, rfl⟩
    · simp at hmem
    · simp only [fetchFailSt] at hmono
      omega
    · simp only [extractFailSt] at hmono
      omega
    · have hrest : ∀ po ∈ rest, po.1.hasId = true :=
        fun po hpo => hall po (List.mem_cons_of_mem _ hpo)
    -- the success state keeps the failed counter, so the tail run also
    -- finishes with no new failures
      have hf1 : st'.failed = (successSt st p o).failed := by
        simp only [successSt]
        rw [hfail]
      obtain ⟨hlog, hproc⟩ := ih (successSt st p o) st' h2 hrest hf1
      constructor
      · rw [hlog]
        simp [successSt]
      · rw [hproc]
        simp [successSt]
        omega

/-- A run in which every record's identifier is already in the resume
set performs no fetches and no writes, counts every record as
processed, and leaves the log untouched. -/
theorem runFrom_all_skip (loaded : List (List Char)) :
    ∀ (recs : List (Paper × Outcome)) (st : RunSt),
      (∀ po ∈ recs, po.1.hasId = true ∧ po.1.id ∈ loaded) →
      ∃ st', runFrom loaded st recs = Except.ok st' ∧
        st'.fetchCount = st.fetchCount ∧
        st'.writeCount = st.writeCount ∧
        st'.failed = st.failed ∧
        st'.processed = st.processed + recs.length ∧
        st'.log = st.log := by
  intro recs
  induction recs with
  | nil =>
    intro st _
    exact ⟨st, by rw [runFrom], rfl, rfl, rfl, by simp, rfl⟩
  | cons r rest ih =>
    intro st hall
    obtain ⟨p, o⟩ := r
    obtain ⟨hid, hmem⟩ := hall (p, o) (by simp)
    have hskip : processOne loaded st p o = Except.ok (skipSt st p) := by
      unfold processOne
      rw [if_pos hid, if_pos hmem]
      rfl
    have hstep : runFrom loaded st ((p, o) :: rest) =
        runFrom loaded (skipSt st p) rest := by
      rw [runFrom, hskip]
    obtain ⟨st', hrun, hf, hw, hfa, hp2, hl⟩ := ih (skipSt st p)
      (fun po hpo => hall po (List.mem_cons_of_mem _ hpo))
    simp only [skipSt] at hf hw hfa hp2 hl
    refine ⟨st', by rw [hstep]; exact hrun, hf, hw, hfa, ?_, hl⟩
    rw [hp2, List.length_cons]
    omega

/- Concrete records and outcomes used by witnesses and
counterexamples. -/

def exPaper : Paper := ⟨true, "a".toList, [("id".toList, "a".toList)]⟩

def exGood : Outcome := ⟨true, false, "T".toList⟩

def exFetchFail : Outcome := ⟨false, false, []⟩

def exFetchFailPart : Outcome := ⟨false, true, []⟩

def exExtractFail : Outcome := ⟨true, false, []⟩

def exNoId : Paper := ⟨false, [], []⟩

/-- Claim C2 (counterexample).  For an input whose single record always
fails its fetch, the first run completes (with `failed = 1` and an
empty checkpoint), and the second run with resume enabled performs one
fetch, not zero: resume only skips identifiers recorded in the
checkpoint, and failed records are retried. -/
theorem C2_resume_counterexample :
    ((process_papers [] [(exPaper, exFetchFail)]).bind
        (fun stA => process_papers stA.log [(exPaper, exFetchFail)])).map
      RunSt.fetchCount = Except.ok 1 ∧
    ((process_papers [] [(exPaper, exFetchFail)]).bind
        (fun stA => process_papers stA.log [(exPaper, exFetchFail)])).map
      RunSt.fetchCount ≠ Except.ok 0 := by
  have h1 : ((process_papers [] [(exPaper, exFetchFail)]).bind
      (fun stA => process_papers stA.log [(exPaper, exFetchFail)])).map
      RunSt.fetchCount = Except.ok 1 := rfl
  refine ⟨h1, ?_⟩
  rw [h1]
  simp

/-- Claim C2 (amended).  If the first run (from an empty checkpoint)
completes with zero failures, then running the same input list again
with resume enabled performs zero fetches and zero output writes, the
second run's processed count equals the number of identifiers in the
checkpoint, and its failed count is 0.  (Without the zero-failure
hypothesis the claim fails: failed records are retried, see the
counterexample.) -/
theorem C2_idempotent_resume_amended
    (recs1 recs2 : List (Paper × Outcome)) (st1 : RunSt)
    (hsame : recs2.map Prod.fst = recs1.map Prod.fst)
    (hall : ∀ po ∈ recs1, po.1.hasId = true)
    (hrun1 : process_papers [] recs1 = Except.ok st1)
    (hfail : st1.failed = 0) :
    ∃ st2, process_papers st1.log recs2 = Except.ok st2 ∧
      st2.fetchCount = 0 ∧ st2.writeCount = 0 ∧
      st2.processed = st1.log.length ∧ st2.failed = 0 := by
  unfold process_papers at hrun1
  obtain ⟨hlog, hproc⟩ := runFrom_no_fail_log recs1 _ st1 hrun1 hall
    (by rw [hfail]; rfl)
  have hlog2 : st1.log = recs1.map (fun po => po.1.id) := by
    rw [hlog]; rfl
  have hskip : ∀ po ∈ recs2, po.1.hasId = true ∧ po.1.id ∈ st1.log := by
    intro po hpo
    have hmem : po.1 ∈ recs2.map Prod.fst := List.mem_map_of_mem _ hpo
    rw [hsame] at hmem
    obtain ⟨po2, hpo2, heq⟩ := List.mem_map.1 hmem
    constructor
    · rw [← heq]; exact hall po2 hpo2
    · rw [hlog2, ← heq]
      exact List.mem_map_of_mem (fun po => po.1.id) hpo2
  obtain ⟨st2, hrun2, hf, hw, hfa, hp2, _⟩ :=
    runFrom_all_skip st1.log recs2 ({ initRunSt with log := st1.log }) hskip
  refine ⟨st2, hrun2, by simpa [initRunSt] using hf,
    by simpa [initRunSt] using hw, ?_, by simpa [initRunSt] using hfa⟩
  rw [hp2]
  have hlen2 : recs2.length = recs1.length := by
    have := congrArg List.length hsame
    simpa using this
  rw [hlog2]
  simp [initRunSt, hlen2]

/-- Witness for `C2_idempotent_resume_amended`: one record that
succeeds in the first run. -/
theorem C2_idempotent_resume_amended_witness :
    (([(exPaper, exGood)] : List (Paper × Outcome)).map Prod.fst =
      ([(exPaper, exGood)] : List (Paper × Outcome)).map Prod.fst) ∧
    (∀ po ∈ [(exPaper, exGood)], po.1.hasId = true) ∧
    process_papers [] [(exPaper, exGood)] = Except.ok
      ⟨[], [("a".toList, writeOutputDocument exPaper.fields "T".toList)],
        ["a".toList], 1, 0, 1, 1, some "a".toList, some "a".toList⟩ ∧
    (∃ st2, process_papers ["a".toList] [(exPaper, exGood)] =
        Except.ok st2 ∧
      st2.fetchCount = 0 ∧ st2.writeCount = 0 ∧
      st2.processed = (["a".toList] : List (List Char)).length ∧
      st2.failed = 0) :=
  ⟨rfl, by decide, rfl,
    C2_idempotent_resume_amended [(exPaper, exGood)] [(exPaper, exGood)]
      ⟨[], [("a".toList, writeOutputDocument exPaper.fields "T".toList)],
        ["a".toList], 1, 0, 1, 1, some "a".toList, some "a".toList⟩
      rfl (by decide) rfl rfl⟩

/-- Every record with an `id` field adds exactly one to
`processed + failed`. -/
theorem runFrom_count (loaded : List (List Char)) :
    ∀ (recs : List (Paper × Outcome)) (st st' : RunSt),
      runFrom loaded st recs = Except.ok st' →
      (∀ po ∈ recs, po.1.hasId = true) →
      st'.processed + st'.failed =
        st.processed + st.failed + recs.length := by
  intro recs
  induction recs with
  | nil =>
    intro st st' h _
    rw [runFrom] at h
    simp at h
    rw [← h]
    simp
  | cons r rest ih =>
    intro st st' h hall
    obtain ⟨p, o⟩ := r
    obtain ⟨st1, h1, h2⟩ := runFrom_cons_ok loaded st p o rest st' h
    have hid : p.hasId = true := hall (p, o) (by simp)
    have hrest : ∀ po ∈ rest, po.1.hasId = true :=
      fun po hpo => hall po (List.mem_cons_of_mem _ hpo)
    have hih := ih st1 st' h2 hrest
    rcases processOne_ok_cases loaded st p o st1 h1 hid with
      ⟨_, rfl⟩ | ⟨_, _, rfl⟩ | ⟨_, _, _, rfl⟩ | ⟨_, _, _, rfl⟩ <;>
      simp only [skipSt, fetchFailSt, extractFailSt, successSt] at hih <;>
      simp only [List.length_cons] <;> omega

/-- Claim C5 (counterexample).  For empty input the run completes with
`processed = failed = 0`, and the completion-rate computation of line
189 divides by zero: the summary is not produced without error (the
claim's guard does not exist in the code). -/
theorem C5_summary_counterexample :
    process_papers [] [] = Except.ok initRunSt ∧
    (process_papers [] []).map
      (fun st => summaryRate st.processed st.failed) =
      Except.ok none := ⟨rfl, rfl⟩

/-- Claim C5 (amended).  After the record sequence is exhausted, the
summary reports the processed count, the failed count, and the
completion rate `processed / (processed + failed)`; the division is
not guarded, so it succeeds exactly when at least one record was
counted -- in particular for every nonempty well-formed input, where
`processed + failed` equals the number of records -- and raises a
division-by-zero error on empty input (see the counterexample). -/
theorem C5_summary_amended (recs : List (Paper × Outcome)) (st : RunSt)
    (hne : recs ≠ []) (hall : ∀ po ∈ recs, po.1.hasId = true)
    (hrun : process_papers [] recs = Except.ok st) :
    st.processed + st.failed = recs.length ∧
    summaryRate st.processed st.failed =
      some ((st.processed : ℚ) /
        ((st.processed : ℚ) + (st.failed : ℚ))) := by
  unfold process_papers at hrun
  have hcount := runFrom_count [] recs _ st hrun hall
  have hcount2 : st.processed + st.failed = recs.length := by
    simpa [initRunSt] using hcount
  refine ⟨hcount2, ?_⟩
  unfold summaryRate
  rw [if_neg]
  rw [hcount2]
  intro hzero
  exact hne (List.length_eq_zero.1 hzero)

/-- Witness for `C5_summary_amended`: a single successful record gives
`processed = 1`, `failed = 0`, rate `1/(1+0)`. -/
theorem C5_summary_amended_witness :
    (([(exPaper, exGood)] : List (Paper × Outcome)) ≠ []) ∧
    (∀ po ∈ [(exPaper, exGood)], po.1.hasId = true) ∧
    process_papers [] [(exPaper, exGood)] = Except.ok
      ⟨[], [("a".toList, writeOutputDocument exPaper.fields "T".toList)],
        ["a".toList], 1, 0, 1, 1, some "a".toList, some "a".toList⟩ ∧
    ((1 : Nat) + 0 =
      ([(exPaper, exGood)] : List (Paper × Outcome)).length ∧
     summaryRate 1 0 = some (((1 : Nat) : ℚ) /
       (((1 : Nat) : ℚ) + ((0 : Nat) : ℚ)))) :=
  ⟨by simp, by decide, rfl,
    C5_summary_amended [(exPaper, exGood)]
      ⟨[], [("a".toList, writeOutputDocument exPaper.fields "T".toList)],
        ["a".toList], 1, 0, 1, 1, some "a".toList, some "a".toList⟩
      (by simp) (by decide) rfl⟩

/-- Claim C9: per-record failures are meant to be contained, but the
exception handler at lines 180-184 reads `arxiv_id` (and `pdf_path`)
before checking that they were ever assigned.  First conjunct: if the
very first record lacks an `'id'` field, `paper['id']` raises
`KeyError`, the handler itself raises `UnboundLocalError`, and the run
aborts -- contradicting the claim.  Second conjunct: the same
malformed record in second position is contained (the failed counter
becomes 1 and the run completes), showing the abort is specific to
the unassigned-variable slip. -/
theorem C9_abort_on_malformed_record :
    process_papers [] [(exNoId, exGood)] = Except.error () ∧
    process_papers [] [(exPaper, exGood), (exNoId, exGood)] =
      Except.ok ⟨[],
        [("a".toList, writeOutputDocument exPaper.fields "T".toList)],
        ["a".toList], 1, 1, 1, 1, some "a".toList, some "a".toList⟩ :=
  ⟨rfl, rfl⟩

/-- One loop iteration on the success path. -/
theorem processOne_success (loaded : List (List Char)) (st : RunSt)
    (p : Paper) (o : Outcome) (hid : p.hasId = true)
    (hmem : p.id ∉ loaded) (hok : o.fetchOk = true)
    (hex : o.extract ≠ []) :
    processOne loaded st p o = Except.ok (successSt st p o) := by
  unfold processOne successSt
  rw [if_pos hid, if_neg hmem, if_pos hok, if_neg hex]

/-- Claim C10: the resume set is built once at load time and never
extended during the run, so an identifier occurring twice in the input
is fetched, written and appended to the checkpoint twice: from an
empty checkpoint, the duplicated record produces two fetches, two
output writes, two (duplicate) checkpoint lines, and both occurrences
count as processed. -/
theorem C10_duplicate_reprocessing (p : Paper) (o : Outcome)
    (hid : p.hasId = true) (hok : o.fetchOk = true)
    (hex : o.extract ≠ []) :
    process_papers [] [(p, o), (p, o)] = Except.ok
      ⟨[], [(p.id, writeOutputDocument p.fields o.extract),
        (p.id, writeOutputDocument p.fields o.extract)],
        [p.id, p.id], 2, 0, 2, 2, some p.id, some p.id⟩ := by
  have hm : p.id ∉ ([] : List (List Char)) := by simp
  unfold process_papers
  have h1 := processOne_success [] ({ initRunSt with log := [] }) p o
    hid hm hok hex
  have h2 := processOne_success []
    (successSt { initRunSt with log := [] } p o) p o hid hm hok hex
  simp only [runFrom, h1, h2]
  simp [successSt, initRunSt, insertId]

/-- Witness for `C10_duplicate_reprocessing` at a concrete record. -/
theorem C10_duplicate_reprocessing_witness :
    (exPaper.hasId = true) ∧ (exGood.fetchOk = true) ∧
    (exGood.extract ≠ []) ∧
    process_papers [] [(exPaper, exGood), (exPaper, exGood)] = Except.ok
      ⟨[], [(exPaper.id, writeOutputDocument exPaper.fields
          exGood.extract),
        (exPaper.id, writeOutputDocument exPaper.fields exGood.extract)],
        [exPaper.id, exPaper.id], 2, 0, 2, 2, some exPaper.id,
        some exPaper.id⟩ :=
  ⟨rfl, rfl, by decide,
    C10_duplicate_reprocessing exPaper exGood rfl rfl (by decide)⟩

theorem not_mem_insertId_erase (l : List (List Char)) (x : List Char)
    (hx : x ∉ l) : x ∉ (insertId l x).erase x := by
  unfold insertId
  rw [if_neg hx]
  rw [List.erase_append_right _ hx]
  simp [hx]

/-- Processing a record with a different identifier never creates the
pdf or the output document of `x`. -/
theorem processOne_frame (loaded : List (List Char)) (st : RunSt)
    (p : Paper) (o : Outcome) (st1 : RunSt)
    (h : processOne loaded st p o = Except.ok st1) (x : List Char)
    (hne : p.id ≠ x) :
    (x ∉ st.tmp → x ∉ st1.tmp) ∧
    (x ∉ st.outs.map Prod.fst → x ∉ st1.outs.map Prod.fst) := by
  by_cases hid : p.hasId
  · rcases processOne_ok_cases loaded st p o st1 h hid with
      ⟨_, rfl⟩ | ⟨_, _, rfl⟩ | ⟨_, _, _, rfl⟩ | ⟨_, _, _, rfl⟩
    · exact ⟨fun hx => hx, fun hx => hx⟩
    · constructor
      · intro hx hmem
        simp only [fetchFailSt] at hmem
        split at hmem
        · rcases (mem_insertId _ _ _).1 hmem with h2 | h2
          · exact hx h2
          · exact hne h2.symm
        · exact hx hmem
      · exact fun hx => hx
    · constructor
      · intro hx hmem
        simp only [extractFailSt] at hmem
        have h2 := List.mem_of_mem_erase hmem
        rcases (mem_insertId _ _ _).1 h2 with h3 | h3
        · exact hx h3
        · exact hne h3.symm
      · exact fun hx => hx
    · constructor
      · intro hx hmem
        simp only [successSt] at hmem
        have h2 := List.mem_of_mem_erase hmem
        rcases (mem_insertId _ _ _).1 h2 with h3 | h3
        · exact hx h3
        · exact hne h3.symm
      · intro hx hmem
        simp only [successSt, List.map_append] at hmem
        rcases List.mem_append.1 hmem with h2 | h2
        · exact hx h2
        · simp at h2
          exact hne h2.symm
  · unfold processOne at h
    rw [if_neg hid] at h
    cases hli : st.lastId with
    | none => rw [hli] at h; simp at h
    | some a =>
      rw [hli] at h
      cases hlp : st.lastPath with
      | none => rw [hlp] at h; simp at h
      | some q =>
        rw [hlp] at h
        simp only [Except.ok.injEq] at h
        rw [← h]
        exact ⟨fun hx hmem => hx (List.mem_of_mem_erase hmem),
          fun hx => hx⟩

theorem runFrom_frame (loaded : List (List Char)) :
    ∀ (recs : List (Paper × Outcome)) (st st' : RunSt),
      runFrom loaded st recs = Except.ok st' →
      ∀ x, (∀ po ∈ recs, po.1.id ≠ x) →
        (x ∉ st.tmp → x ∉ st'.tmp) ∧
        (x ∉ st.outs.map Prod.fst → x ∉ st'.outs.map Prod.fst) := by
  intro recs
  induction recs with
  | nil =>
    intro st st' h x _
    rw [runFrom] at h
    simp at h
    rw [← h]
    exact ⟨fun hx => hx, fun hx => hx⟩
  | cons r rest ih =>
    intro st st' h x hne
    obtain ⟨p, o⟩ := r
    obtain ⟨st1, h1, h2⟩ := runFrom_cons_ok loaded st p o rest st' h
    have hstep := processOne_frame loaded st p o st1 h1 x
      (hne (p, o) (by simp))
    have hrest := ih st1 st' h2 x
      (fun po hpo => hne po (List.mem_cons_of_mem _ hpo))
    exact ⟨fun hx => hrest.1 (hstep.1 hx),
      fun hx => hrest.2 (hstep.2 hx)⟩

theorem noOrphan_aux :
    ∀ (recs : List (Paper × Outcome)) (st st' : RunSt),
      runFrom [] st recs = Except.ok st' →
      (recs.map (fun po => po.1.id)).Nodup →
      (∀ po ∈ recs, po.1.hasId = true) →
      ∀ po ∈ recs, (po.2.fetchOk = false ∨ po.2.extract = []) →
        po.1.id ∉ st.tmp → po.1.id ∉ st.outs.map Prod.fst →
        po.1.id ∉ st'.outs.map Prod.fst ∧
        (po.2.fetchOk = true → po.1.id ∉ st'.tmp) := by
  intro recs
  induction recs with
  | nil => intro st st' _ _ _ po hpo; simp at hpo
  | cons r rest ih =>
    intro st st' h hnodup hall po hpo hfails htmp houts
    obtain ⟨q, oq⟩ := r
    obtain ⟨st1, h1, h2⟩ := runFrom_cons_ok [] st q oq rest st' h
    have hid : q.hasId = true := hall (q, oq) (by simp)
    rw [List.map_cons, List.nodup_cons] at hnodup
    rcases List.mem_cons.1 hpo with heq | hpo2
    · -- the record under scrutiny is at the head
      subst heq
      have hfr := runFrom_frame [] rest st1 st' h2 q.id
        (fun po2 hpo2 => by
          intro hc
          exact hnodup.1 (hc ▸ List.mem_map_of_mem (fun po => po.1.id)
            hpo2))
      rcases processOne_ok_cases [] st q oq st1 h1 hid with
        ⟨hmem, _⟩ | ⟨_, hok, rfl⟩ | ⟨_, hok, hex, rfl⟩ |
        ⟨_, hok, hex, rfl⟩
      · simp at hmem
      · -- fetch failure: no output was written; the tmp clause is
        -- vacuous since the fetch did not succeed
        refine ⟨hfr.2 (by simpa [fetchFailSt] using houts), ?_⟩
        intro hcontra
        rw [hok] at hcontra
        simp at hcontra
      · -- extraction failure: the pdf is removed and no output exists
        refine ⟨hfr.2 (by simpa [extractFailSt] using houts), ?_⟩
        intro _
        apply hfr.1
        simp only [extractFailSt]
        exact not_mem_insertId_erase st.tmp q.id htmp
      · -- success contradicts the failure hypothesis
        rcases hfails with hf | hf
        · rw [hok] at hf; simp at hf
        · exact absurd hf hex
    · -- the record under scrutiny is further down the list
      have hneq : q.id ≠ po.1.id := by
        intro hc
        exact hnodup.1 (hc ▸ List.mem_map_of_mem (fun po => po.1.id)
          hpo2)
      have hstep := processOne_frame [] st q oq st1 h1 po.1.id hneq
      exact ih st1 st' h2 hnodup.2
        (fun po2 hpo2 => hall po2 (List.mem_cons_of_mem _ hpo2))
        po hpo2 hfails (hstep.1 htmp) (hstep.2 houts)

/-- Claim C4 (counterexample).  A record whose fetch fails partway
(leaving a partially written download) is counted as failed and the
loop moves on without removing the file: after the run the temporary
`a.pdf` still exists, contradicting "no temporary artifact exists for
that identifier".  (No output document exists, as the second conjunct
shows.) -/
theorem C4_orphan_counterexample :
    (process_papers [] [(exPaper, exFetchFailPart)]).map RunSt.tmp =
      Except.ok ["a".toList] ∧
    (process_papers [] [(exPaper, exFetchFailPart)]).map
      (fun st => st.outs.map Prod.fst) = Except.ok [] := ⟨rfl, rfl⟩

/-- Claim C4 (amended).  For well-formed inputs with distinct
identifiers, after the runner returns: a record whose fetch or
extraction failed has no output document; a record whose extraction
failed also has no temporary artifact (the runner removes the
download).  A failed fetch, however, may leave a partially written
download behind, which the runner does not remove (see the
counterexample). -/
theorem C4_no_orphans_amended (recs : List (Paper × Outcome))
    (st' : RunSt)
    (hnodup : (recs.map (fun po => po.1.id)).Nodup)
    (hall : ∀ po ∈ recs, po.1.hasId = true)
    (hrun : process_papers [] recs = Except.ok st') :
    ∀ po ∈ recs, (po.2.fetchOk = false ∨ po.2.extract = []) →
      po.1.id ∉ st'.outs.map Prod.fst ∧
      (po.2.fetchOk = true → po.1.id ∉ st'.tmp) := by
  intro po hpo hfails
  exact noOrphan_aux recs _ st' hrun hnodup hall po hpo hfails
    (by simp [initRunSt]) (by simp [initRunSt])

/-- Witness for `C4_no_orphans_amended`: one record whose extraction
fails. -/
theorem C4_no_orphans_amended_witness :
    (([(exPaper, exExtractFail)] : List (Paper × Outcome)).map
        (fun po => po.1.id)).Nodup ∧
    (∀ po ∈ [(exPaper, exExtractFail)], po.1.hasId = true) ∧
    process_papers [] [(exPaper, exExtractFail)] = Except.ok
      ⟨[], [], [], 0, 1, 1, 0, some "a".toList, some "a".toList⟩ ∧
    ((exPaper, exExtractFail).2.fetchOk = false ∨
      (exPaper, exExtractFail).2.extract = []) ∧
    ((exPaper, exExtractFail).1.id ∉
      (RunSt.mk [] [] [] 0 1 1 0 (some "a".toList)
        (some "a".toList)).outs.map Prod.fst ∧
     ((exPaper, exExtractFail).2.fetchOk = true →
      (exPaper, exExtractFail).1.id ∉
        (RunSt.mk [] [] [] 0 1 1 0 (some "a".toList)
          (some "a".toList)).tmp)) :=
  ⟨by decide, by decide, rfl, Or.inr rfl,
    C4_no_orphans_amended [(exPaper, exExtractFail)]
      ⟨[], [], [], 0, 1, 1, 0, some "a".toList, some "a".toList⟩
      (by decide) (by decide) rfl (exPaper, exExtractFail) (by simp)
      (Or.inr rfl)⟩
